import Mathlib

/-!
Shallow embedding of the duplicate-file finder (findSameFile).
Sources modelled: src/cache_manager.py (HashCache), src/file_scanner.py
(FileScanner / HashCalculator), src/duplicate_finder.py (DuplicateFinder).

Modelling conventions:
* Python `float` mtimes are modelled as `Int`; the code only ever compares
  mtimes for exact equality, so any type with decidable equality is faithful.
* Hash digests are opaque strings supplied by an environment `FS`
  (`hashOf` models `HashCalculator.calculate_file_hash`, `sampledOf` models
  `DuplicateFinder._calculate_partial_hash`, a name we cannot reuse verbatim).
  `hexdigest` strings are nonempty, so Python truthiness tests on a hash
  (`if hash_value:`) coincide with the `Option.isSome` tests used here.
* The cancellation callback is modelled as a predicate `Nat → Bool` applied
  to the number of polls made so far; every site where the Python code runs
  `cancel_callback()` consumes one poll index.
* Progress callbacks are one-way notifications that never influence any
  returned value; they are omitted from the model.
* The nondeterministic completion order of `concurrent.futures.as_completed`
  is modelled by an explicit `reorder` parameter applied to the submitted
  file list before the sequential collection loop.
-/

namespace FindSameFile

/-- `FileInfo` from file_scanner.py: immutable metadata snapshot. -/
structure FileInfo where
  path : String
  size : Nat
  mtime : Int
deriving Repr, DecidableEq

instance : Inhabited FileInfo := ⟨⟨"", 0, 0⟩⟩

/-- One row of the SQLite `hash_cache` table (cache_manager.py). The
`id`/`created_at`/`updated_at` columns never influence lookups and are
omitted. -/
structure CacheEntry where
  path : String
  size : Nat
  mtime : Int
  hash_value : String
deriving Repr, DecidableEq

/-- The `hash_cache` table as an ordered list of rows.  `path` is declared
UNIQUE in the schema; `set`/`set_batch` maintain that invariant. -/
abbrev HashCache := List CacheEntry

/-- `HashCache.get`: `SELECT hash_value WHERE path = ? AND size = ? AND
mtime = ?`, `fetchone` returning the first matching row. -/
def HashCache.get (c : HashCache) (p : String) (s : Nat) (m : Int) :
    Option String :=
  (c.find? (fun e => e.path == p && e.size == s && e.mtime == m)).map
    CacheEntry.hash_value

/-- `HashCache.set`: `INSERT OR REPLACE` keyed by the UNIQUE `path` column —
any existing row for the path is dropped and the new row inserted. -/
def HashCache.set (c : HashCache) (p : String) (s : Nat) (m : Int)
    (h : String) : HashCache :=
  ⟨p, s, m, h⟩ :: c.filter (fun e => e.path != p)

/-- `HashCache.set_batch`: `executemany` of the same `INSERT OR REPLACE`. -/
def HashCache.set_batch (c : HashCache) (entries : List CacheEntry) :
    HashCache :=
  entries.foldl (fun acc e => acc.set e.path e.size e.mtime e.hash_value) c

/-- `HashCache.get_batch`: `SELECT path, hash_value WHERE (path,size,mtime)
IN (...)`, returned as a path-keyed association list (the Python code builds
a dict from the rows). -/
def HashCache.get_batch (c : HashCache)
    (infos : List (String × Nat × Int)) : List (String × String) :=
  (c.filter (fun e => decide ((e.path, e.size, e.mtime) ∈ infos))).map
    (fun e => (e.path, e.hash_value))

/-- Python `str.startswith(pre)` (and the row filter of a metacharacter-free
SQLite `GLOB pre*` pattern): `pre.data` is a list-prefix of `s.data`. -/
def strStarts (s pre : String) : Bool :=
  charsLead pre.data s.data
where
  charsLead : List Char → List Char → Bool
    | [], _ => true
    | _ :: _, [] => false
    | a :: as, b :: bs => a == b && charsLead as bs

/-- `HashCache.invalidate_by_prefix` (a name the development cannot spell
verbatim): after `os.path.normpath`, runs `DELETE FROM hash_cache WHERE path
GLOB ?` with pattern `pfx*` and returns the deleted row count.  Modelled for
an already-normalised argument containing no GLOB metacharacters, where the
pattern deletes exactly the rows whose path has `pfx` as a plain string
prefix.  (The source raises ValidationError for an empty argument; callers
in scope always pass nonempty paths.) -/
def HashCache.invalidateUnder (c : HashCache) (pfx : String) :
    HashCache × Nat :=
  (c.filter (fun e => !(strStarts e.path pfx)),
   (c.filter (fun e => strStarts e.path pfx)).length)

/-- `HashCache.get_stats`, restricted to the fields computed from table
contents (`db_size` and the created-at timestamps depend on the filesystem
and wall clock and are outside the embedding). -/
def HashCache.get_stats (c : HashCache) : Nat × Nat :=
  (c.length, (c.map CacheEntry.size).sum)

/-! ## file_scanner.py: FileScanner -/

/-- `SKIP_EXTENSIONS` from file_scanner.py. -/
def SKIP_EXTENSIONS : List String := [".app", ".bundle", ".pkg", ".dmg", ".iso"]

/-- `SKIP_NAMES` from file_scanner.py. -/
def SKIP_NAMES : List String :=
  ["._", ".DS_Store", "Thumbs.db", ".Spotlight-V100", ".Trashes"]

/-- One filesystem entry seen by `FileScanner.scan_directory`'s `rglob`
walk.  `name`/`suffix` model `Path.name`/`Path.suffix` (the suffix is
carried explicitly rather than recomputed from the name); `stat` is the
`stat()` result `(st_size, st_mtime)`, `none` modelling an `OSError`. -/
structure DirEntry where
  path : String
  name : String
  suffix : String
  stat : Option (Nat × Int)
deriving Repr, DecidableEq

/-- Extension normalisation inside `should_skip_file`: lowercase, and a
leading dot added to bare forms. -/
def normalizeExt (e : String) : String :=
  if strStarts e "." then e.toLower else "." ++ e.toLower

/-- `should_skip_file` from `FileScanner.scan_directory`: deny-listed
suffix, deny-listed leading name, failed stat or zero size, or (when an
extension set is configured) a suffix outside the normalised set. -/
def should_skip_file (exts : Option (List String)) (e : DirEntry) : Bool :=
  if SKIP_EXTENSIONS.contains e.suffix.toLower then true
  else if SKIP_NAMES.any (fun n => strStarts e.name n) then true
  else
    match e.stat with
    | none => true
    | some (sz, _) =>
      if sz == 0 then true
      else
        match exts with
        | some es => !((es.map normalizeExt).contains e.suffix.toLower)
        | none => false

/-- `FileScanner.scan_directory`, given the entries produced by the walk:
every non-skipped entry whose `stat` succeeds yields a `FileInfo`.  (The
enumeration pre-pass and progress reporting do not affect the returned
list; per-file stat failures are logged and skipped.) -/
def scan_directory (exts : Option (List String)) (entries : List DirEntry) :
    List FileInfo :=
  entries.filterMap (fun e =>
    if should_skip_file exts e then none
    else e.stat.map (fun sm => FileInfo.mk e.path sm.1 sm.2))

/-! ## duplicate_finder.py: DuplicateFinder -/

/-- The hashing environment: `hashOf` is
`HashCalculator.calculate_file_hash` and `sampledOf` is the three-window
1 MB digest `DuplicateFinder._calculate_partial_hash` (both return `none` on
any I/O failure).  For a fixed file at a fixed path both depend only on the
file's bytes, hence are functions of the path within one scan. -/
structure FS where
  hashOf : String → Option String
  sampledOf : String → Option String

/-- The configuration flags of `DuplicateFinder.__init__` that influence
control flow (`CONCURRENT_AVAILABLE` is true on every supported runtime, so
`self.use_parallel = use_parallel and CONCURRENT_AVAILABLE` reduces to the
constructor argument). -/
structure Config where
  use_parallel : Bool
  use_multi_stage : Bool
  use_process_pool : Bool
deriving Repr, DecidableEq

/-- `DuplicateGroup` from duplicate_finder.py. -/
structure DuplicateGroup where
  hash_value : String
  files : List FileInfo
  total_size : Nat
deriving Repr, DecidableEq

instance : Inhabited DuplicateGroup := ⟨⟨"", [], 0⟩⟩

/-- `defaultdict(list)` update `d[h].append(f)`: append to the existing
key's list, or add a new key at the end (Python dicts preserve insertion
order). -/
def addToGroup : List (String × List FileInfo) → String → FileInfo →
    List (String × List FileInfo)
  | [], h, f => [(h, [f])]
  | (k, fs) :: rest, h, f =>
    if k == h then (k, fs ++ [f]) :: rest
    else (k, fs) :: addToGroup rest h f

/-- `defaultdict(list)` update `size_groups[f.size].append(f)`. -/
def addToSizeGroup : List (Nat × List FileInfo) → FileInfo →
    List (Nat × List FileInfo)
  | [], f => [(f.size, [f])]
  | (s, fs) :: rest, f =>
    if s == f.size then (s, fs ++ [f]) :: rest
    else (s, fs) :: addToSizeGroup rest f

/-- Steps 1–2 of `find_duplicates`: bucket scanned files by exact size and
keep only buckets with more than one member. -/
def sizeGroups (files : List FileInfo) : List (List FileInfo) :=
  ((files.foldl addToSizeGroup []).filter (fun g => 1 < g.2.length)).map
    Prod.snd

/-- The large-file count inside `_should_use_multi_stage`: files of the
surviving buckets whose size strictly exceeds 5 MB. -/
def countLarge (pd : List (List FileInfo)) : Nat :=
  pd.foldl (fun acc g =>
    acc + (g.filter (fun f => 5 * 1024 * 1024 < f.size)).length) 0

/-- `DuplicateFinder._should_use_multi_stage`: at least 10 large files. -/
def should_use_multi_stage (pd : List (List FileInfo)) : Bool :=
  10 ≤ countLarge pd

/-- The three hashing paths of step 3 of `find_duplicates`. -/
inductive Strategy where
  | multiStage
  | par
  | serial
deriving Repr, DecidableEq

/-- The `if`/`elif`/`else` dispatch of step 3 of `find_duplicates`. -/
def chooseStrategy (cfg : Config) (pd : List (List FileInfo)) : Strategy :=
  if cfg.use_multi_stage && should_use_multi_stage pd then .multiStage
  else if cfg.use_parallel && 1 < pd.length then .par
  else .serial

/-- Result of one hash phase: the `hash_groups` mapping (ordered, as built
by `defaultdict`), the cache contents after any `set_batch`, the session
hit/miss deltas, the next cancellation poll index, and whether a
cancellation poll returned true during the phase. -/
structure HashPhase where
  groups : List (String × List FileInfo)
  cache : Option HashCache
  hits : Nat
  misses : Nat
  poll : Nat
  cancelled : Bool
deriving Repr

/-- Loop state of `_calculate_hashes_serial`. -/
structure SerialSt where
  groups : List (String × List FileInfo)
  toSave : List CacheEntry
  hits : Nat
  misses : Nat
  poll : Nat
deriving Repr

/-- The per-file loop of `_calculate_hashes_serial`: poll cancellation,
consult the cache (counting hit or miss), compute the hash on a miss and
queue a write-entry, and record the file under its hash.  Returns the final
state and whether cancellation was observed. -/
def serialLoop (fs0 : FS) (cache0 : Option HashCache) (cancel : Nat → Bool) :
    List FileInfo → SerialSt → SerialSt × Bool
  | [], st => (st, false)
  | f :: rest, st =>
    if cancel st.poll then ({ st with poll := st.poll + 1 }, true)
    else
      let st := { st with poll := st.poll + 1 }
      let lookedUp : Option String × Nat × Nat :=
        match cache0 with
        | some c =>
          match c.get f.path f.size f.mtime with
          | some h => (some h, st.hits + 1, st.misses)
          | none => (none, st.hits, st.misses + 1)
        | none => (none, st.hits, st.misses)
      let computed : Option String × List CacheEntry :=
        match lookedUp.1 with
        | some h => (some h, st.toSave)
        | none =>
          match fs0.hashOf f.path with
          | some h =>
            (some h,
             if cache0.isSome then st.toSave ++ [⟨f.path, f.size, f.mtime, h⟩]
             else st.toSave)
          | none => (none, st.toSave)
      let groups' :=
        match computed.1 with
        | some h => addToGroup st.groups h f
        | none => st.groups
      serialLoop fs0 cache0 cancel rest
        ⟨groups', computed.2, lookedUp.2.1, lookedUp.2.2, st.poll⟩

/-- `DuplicateFinder._calculate_hashes_serial`.  On cancellation the Python
code flushes the pending write-entries and returns `{}`; on normal exit it
flushes and returns the accumulated groups. -/
def calculate_hashes_serial (fs0 : FS) (cache0 : Option HashCache)
    (cancel : Nat → Bool) (pd : List (List FileInfo)) (poll0 : Nat) :
    HashPhase :=
  let r := serialLoop fs0 cache0 cancel pd.flatten ⟨[], [], 0, 0, poll0⟩
  { groups := if r.2 then [] else r.1.groups
    cache := cache0.map (fun c => c.set_batch r.1.toSave)
    hits := r.1.hits
    misses := r.1.misses
    poll := r.1.poll
    cancelled := r.2 }

/-- Loop state of stage 1 of `_calculate_hashes_multi_stage`. -/
structure MsSt where
  forFull : List (FileInfo × String)
  hits : Nat
  misses : Nat
  poll : Nat
deriving Repr

/-- Outcome of stage 1 of `_calculate_hashes_multi_stage`: cancelled,
aborted by the cache-hit early `return` (which hands back a dict holding
only the hit file), or completed with the files queued for stage 2. -/
inductive MsStage1Out where
  | cancelled (st : MsSt)
  | cacheHit (h : String) (f : FileInfo) (st : MsSt)
  | done (st : MsSt)
deriving Repr

/-- Stage 1 of `_calculate_hashes_multi_stage`: per file, poll
cancellation, consult the cache — a hit takes the early `return` with a
fresh single-entry dict — otherwise compute the sampled three-window hash
and queue `(file, sampled)` for stage 2. -/
def msStage1 (fs0 : FS) (cache0 : Option HashCache) (cancel : Nat → Bool) :
    List FileInfo → MsSt → MsStage1Out
  | [], st => .done st
  | f :: rest, st =>
    if cancel st.poll then .cancelled { st with poll := st.poll + 1 }
    else
      let st := { st with poll := st.poll + 1 }
      match cache0 with
      | some c =>
        match c.get f.path f.size f.mtime with
        | some h => .cacheHit h f { st with hits := st.hits + 1 }
        | none =>
          let st := { st with misses := st.misses + 1 }
          match fs0.sampledOf f.path with
          | some ph =>
            msStage1 fs0 cache0 cancel rest
              { st with forFull := st.forFull ++ [(f, ph)] }
          | none => msStage1 fs0 cache0 cancel rest st
      | none =>
        match fs0.sampledOf f.path with
        | some ph =>
          msStage1 fs0 cache0 cancel rest
            { st with forFull := st.forFull ++ [(f, ph)] }
        | none => msStage1 fs0 cache0 cancel rest st

/-- Stage 2 grouping `partial_to_files`: bucket the queued files by sampled
hash, in first-appearance order. -/
def groupBySampled (l : List (FileInfo × String)) :
    List (String × List FileInfo) :=
  l.foldl (fun acc fp => addToGroup acc fp.2 fp.1) []

/-- Stage 2 selection: concatenate, in bucket order, the buckets holding
two or more files; singleton buckets are dropped. -/
def secondStage (l : List (FileInfo × String)) : List FileInfo :=
  ((groupBySampled l).filter (fun g => 1 < g.2.length)).foldl
    (fun acc g => acc ++ g.2) []

/-- `_calculate_full_hashes_serial`: full hashes only, no cache
interaction; cancellation returns `{}`. -/
def fullSerialLoop (fs0 : FS) (cancel : Nat → Bool) :
    List FileInfo → List (String × List FileInfo) → Nat →
    List (String × List FileInfo) × Nat × Bool
  | [], gs, poll => (gs, poll, false)
  | f :: rest, gs, poll =>
    if cancel poll then ([], poll + 1, true)
    else
      match fs0.hashOf f.path with
      | some h => fullSerialLoop fs0 cancel rest (addToGroup gs h f) (poll + 1)
      | none => fullSerialLoop fs0 cancel rest gs (poll + 1)

/-- Collection loop of `_calculate_full_hashes_parallel` over the completed
futures: cancellation cancels the rest and returns `{}` (no write-entries
survive); otherwise each successful hash is recorded and queued for the
batch cache write done at the end of that function. -/
def fullParallelLoop (fs0 : FS) (cacheEnabled : Bool) (cancel : Nat → Bool) :
    List FileInfo → List (String × List FileInfo) → List CacheEntry → Nat →
    List (String × List FileInfo) × List CacheEntry × Nat × Bool
  | [], gs, toSave, poll => (gs, toSave, poll, false)
  | f :: rest, gs, toSave, poll =>
    if cancel poll then ([], [], poll + 1, true)
    else
      match fs0.hashOf f.path with
      | some h =>
        fullParallelLoop fs0 cacheEnabled cancel rest (addToGroup gs h f)
          (if cacheEnabled then toSave ++ [⟨f.path, f.size, f.mtime, h⟩]
           else toSave) (poll + 1)
      | none => fullParallelLoop fs0 cacheEnabled cancel rest gs toSave (poll + 1)

/-- `_calculate_full_hashes_parallel` (thread pool): futures for all files,
collected in `as_completed` order (`reorder`), then a single `set_batch` of
the accumulated write-entries. -/
def calculate_full_hashes_parallel (fs0 : FS) (cache0 : Option HashCache)
    (cancel : Nat → Bool) (reorder : List FileInfo → List FileInfo)
    (files : List FileInfo) (poll0 : Nat) : HashPhase :=
  let r := fullParallelLoop fs0 cache0.isSome cancel (reorder files) [] [] poll0
  { groups := r.1
    cache := cache0.map (fun c => c.set_batch r.2.1)
    hits := 0
    misses := 0
    poll := r.2.2.1
    cancelled := r.2.2.2 }

/-- `_calculate_full_hashes_serial` wrapped as a phase (it neither reads
nor writes the cache; the caller saves its groups). -/
def calculate_full_hashes_serial (fs0 : FS) (cache0 : Option HashCache)
    (cancel : Nat → Bool) (files : List FileInfo) (poll0 : Nat) : HashPhase :=
  let r := fullSerialLoop fs0 cancel files [] poll0
  { groups := r.1
    cache := cache0
    hits := 0
    misses := 0
    poll := r.2.1
    cancelled := r.2.2 }

/-- The write-entries `_calculate_hashes_multi_stage` derives from the
final groups (one entry per file, carrying its group's hash). -/
def entriesOfGroups (gs : List (String × List FileInfo)) : List CacheEntry :=
  gs.foldl (fun acc g =>
    acc ++ g.2.map (fun f => CacheEntry.mk f.path f.size f.mtime g.1)) []

/-- `DuplicateFinder._calculate_hashes_multi_stage`: stage 1 (cache lookup
plus sampled hash) over the flattened candidates, stage 2 bucketing by
sampled hash, stage 3 full hashes (parallel when configured and more than
one file survives), then `set_batch` of the entries derived from the final
groups when the cache is on and the groups are nonempty.  A stage-1 cache
hit takes the early `return` with only the hit file. -/
def calculate_hashes_multi_stage (fs0 : FS) (cfg : Config)
    (cache0 : Option HashCache) (cancel : Nat → Bool)
    (reorder : List FileInfo → List FileInfo)
    (pd : List (List FileInfo)) (poll0 : Nat) : HashPhase :=
  match msStage1 fs0 cache0 cancel pd.flatten ⟨[], 0, 0, poll0⟩ with
  | .cancelled st =>
    { groups := [], cache := cache0, hits := st.hits, misses := st.misses
      poll := st.poll, cancelled := true }
  | .cacheHit h f st =>
    { groups := [(h, [f])], cache := cache0, hits := st.hits
      misses := st.misses, poll := st.poll, cancelled := false }
  | .done st =>
    let ss := secondStage st.forFull
    let sub :=
      if cfg.use_parallel && 1 < ss.length then
        calculate_full_hashes_parallel fs0 cache0 cancel reorder ss st.poll
      else
        calculate_full_hashes_serial fs0 cache0 cancel ss st.poll
    let cache2 := sub.cache.map (fun c =>
      if sub.groups.isEmpty then c else c.set_batch (entriesOfGroups sub.groups))
    { groups := sub.groups, cache := cache2, hits := st.hits
      misses := st.misses, poll := sub.poll, cancelled := sub.cancelled }

/-- The executor collection loop shared by the three inner branches of
`_calculate_hashes_parallel` (process-pool `map`/`zip`, thread-pool
`as_completed`, and the serial fallback): these differ only in iteration
order.  A true cancellation poll `break`s — keeping the groups accumulated
so far — after which the pending write-entries are still flushed. -/
def parallelCalcLoop (fs0 : FS) (cacheEnabled : Bool) (cancel : Nat → Bool) :
    List FileInfo → List (String × List FileInfo) → List CacheEntry → Nat →
    List (String × List FileInfo) × List CacheEntry × Nat × Bool
  | [], gs, toSave, poll => (gs, toSave, poll, false)
  | f :: rest, gs, toSave, poll =>
    if cancel poll then (gs, toSave, poll + 1, true)
    else
      match fs0.hashOf f.path with
      | some h =>
        parallelCalcLoop fs0 cacheEnabled cancel rest (addToGroup gs h f)
          (if cacheEnabled then toSave ++ [⟨f.path, f.size, f.mtime, h⟩]
           else toSave) (poll + 1)
      | none => parallelCalcLoop fs0 cacheEnabled cancel rest gs toSave (poll + 1)

/-- Pre-pass of `_calculate_hashes_parallel`: one `get_batch` round trip,
then per file a dict probe by path — a hit is grouped immediately, a miss
is queued for computation. -/
def parallelCachePass (cache0 : Option HashCache) (files : List FileInfo) :
    List (String × List FileInfo) × List FileInfo × Nat × Nat :=
  match cache0 with
  | some c =>
    let cached := c.get_batch (files.map (fun f => (f.path, f.size, f.mtime)))
    files.foldl (fun acc f =>
      match cached.lookup f.path with
      | some hv => (addToGroup acc.1 hv f, acc.2.1, acc.2.2.1 + 1, acc.2.2.2)
      | none => (acc.1, acc.2.1 ++ [f], acc.2.2.1, acc.2.2.2 + 1))
      ([], [], 0, 0)
  | none => ([], files, 0, 0)

/-- `DuplicateFinder._calculate_hashes_parallel`: batched cache pre-pass;
an all-cached candidate set returns early; otherwise the configured
executor branch runs (thread-pool completion order modelled by `reorder`;
the process-pool `zip` and the serial fallback keep submission order),
followed by one `set_batch` of the accumulated write-entries. -/
def calculate_hashes_parallel (fs0 : FS) (cfg : Config)
    (cache0 : Option HashCache) (cancel : Nat → Bool)
    (reorder : List FileInfo → List FileInfo)
    (pd : List (List FileInfo)) (poll0 : Nat) : HashPhase :=
  let files := pd.flatten
  let pre := parallelCachePass cache0 files
  if pre.2.1.isEmpty then
    { groups := pre.1, cache := cache0, hits := pre.2.2.1
      misses := pre.2.2.2, poll := poll0, cancelled := false }
  else
    let order :=
      if cfg.use_parallel && !cfg.use_process_pool then reorder pre.2.1
      else pre.2.1
    let r := parallelCalcLoop fs0 cache0.isSome cancel order pre.1 [] poll0
    { groups := r.1
      cache := cache0.map (fun c => c.set_batch r.2.1)
      hits := pre.2.2.1
      misses := pre.2.2.2
      poll := r.2.2.1
      cancelled := r.2.2.2 }

/-- `insort` step of the final `duplicate_groups.sort(key=total_size,
reverse=True)`: the next group goes after every already-placed group with a
greater-or-equal total, keeping the stable descending order Python's stable
sort produces. -/
def insertByTotal (x : DuplicateGroup) : List DuplicateGroup →
    List DuplicateGroup
  | [] => [x]
  | y :: t =>
    if y.total_size < x.total_size then x :: y :: t
    else y :: insertByTotal x t

/-- Stable sort by descending `total_size` (ties keep encounter order). -/
def sortByTotalDesc (l : List DuplicateGroup) : List DuplicateGroup :=
  l.foldl (fun acc x => insertByTotal x acc) []

/-- Result of `find_duplicates`: the sorted duplicate groups, the cache
contents after the run, the session hit/miss deltas, and whether the hash
phase observed cancellation. -/
structure FindResult where
  groups : List DuplicateGroup
  cache : Option HashCache
  hits : Nat
  misses : Nat
  cancelled : Bool
deriving Repr

/-- `DuplicateFinder.find_duplicates`, taking the scanner's output as
input: size bucketing, the post-bucketing cancellation check (poll 0),
strategy dispatch (hash-phase polls start at 1), group construction
(`len > 1`, `total_size = files[0].size * len`), and the stable descending
sort. -/
def find_duplicates (fs0 : FS) (cfg : Config) (cache0 : Option HashCache)
    (cancel : Nat → Bool) (reorder : List FileInfo → List FileInfo)
    (files : List FileInfo) : FindResult :=
  let pd := sizeGroups files
  if cancel 0 then
    { groups := [], cache := cache0, hits := 0, misses := 0
      cancelled := false }
  else
    let phase :=
      match chooseStrategy cfg pd with
      | .multiStage => calculate_hashes_multi_stage fs0 cfg cache0 cancel reorder pd 1
      | .par => calculate_hashes_parallel fs0 cfg cache0 cancel reorder pd 1
      | .serial => calculate_hashes_serial fs0 cache0 cancel pd 1
    let dupGroups :=
      (phase.groups.filter (fun g => 1 < g.2.length)).map (fun g =>
        DuplicateGroup.mk g.1 g.2 (g.2.headI.size * g.2.length))
    { groups := sortByTotalDesc dupGroups
      cache := phase.cache
      hits := phase.hits
      misses := phase.misses
      cancelled := phase.cancelled }

/-- `DuplicateFinder.get_total_wasted_space`: fold of
`total_size - files[0].size` (Python integer subtraction; `files[0]`
presupposes a nonempty member list, which `find_duplicates` guarantees). -/
def get_total_wasted_space (gs : List DuplicateGroup) : Int :=
  gs.foldl (fun w g => w + ((g.total_size : Int) - (g.files.headI.size : Int))) 0

/-- The statistics dict of `DuplicateFinder.get_cache_stats` when a cache
is present (`hit_rate` is an exact rational here; Python uses a float). -/
structure CacheStats where
  total_entries : Nat
  total_size : Nat
  enabled : Bool
  hits : Nat
  misses : Nat
  hit_rate : ℚ
deriving Repr, DecidableEq

/-- `DuplicateFinder.get_cache_stats` outcome: the cache-off branch returns
only `enabled: False`. -/
inductive StatsResult where
  | disabled
  | stats (s : CacheStats)
deriving Repr, DecidableEq

/-- `DuplicateFinder.get_cache_stats`. -/
def get_cache_stats (cache0 : Option HashCache)
    (cache_hits cache_misses : Nat) : StatsResult :=
  match cache0 with
  | none => .disabled
  | some c =>
    .stats
      { total_entries := (c.get_stats).1
        total_size := (c.get_stats).2
        enabled := true
        hits := cache_hits
        misses := cache_misses
        hit_rate :=
          if 0 < cache_hits + cache_misses then
            (cache_hits : ℚ) / ((cache_hits : ℚ) + (cache_misses : ℚ))
          else 0 }

/-- Projection used to state properties of `get_cache_stats`. -/
def StatsResult.hitRate : StatsResult → ℚ
  | .disabled => 0
  | .stats s => s.hit_rate

/-! ## Specification-side derived notions -/

/-- The hash a file effectively receives during one run: the full hash
stored in the initial cache under its exact identity when present,
otherwise the freshly computed full hash.  Every hashing path reads only
the cache contents it started with (batch writes land after the reads). -/
def effHash (fs0 : FS) (cache0 : Option HashCache) (f : FileInfo) :
    Option String :=
  match cache0 with
  | some c =>
    match c.get f.path f.size f.mtime with
    | some h => some h
    | none => fs0.hashOf f.path
  | none => fs0.hashOf f.path

/-- Well-formedness of a `hash_groups` mapping: every file recorded under a
key has that key as its effective hash (per `hv`) and comes from the
candidate set `S`. -/
def GroupsOk (hv : FileInfo → Option String) (S : List FileInfo)
    (gs : List (String × List FileInfo)) : Prop :=
  ∀ p ∈ gs, ∀ f ∈ p.2, hv f = some p.1 ∧ f ∈ S

/-- Paths identify files within a scan (the spec's "path unique per
scan"). -/
def PathInj (S : List FileInfo) : Prop :=
  ∀ f ∈ S, ∀ g ∈ S, f.path = g.path → f = g

/-- Effective hashes respect sizes on the candidate set: two candidates
receiving the same (successful) effective hash have equal size — the
collision-resistance idealisation the spec's grouping invariant relies
on. -/
def SizeCoherent (fs0 : FS) (cache0 : Option HashCache)
    (S : List FileInfo) : Prop :=
  ∀ f ∈ S, ∀ g ∈ S,
    effHash fs0 cache0 f = effHash fs0 cache0 g →
    effHash fs0 cache0 f ≠ none →
    f.size = g.size

/-- Invariant of the stage-1 queue `files_for_full_hash`: every queued file
is a candidate whose cache lookup missed, so its effective hash is the
freshly computed one. -/
def ForFullOk (fs0 : FS) (cache0 : Option HashCache) (S : List FileInfo)
    (l : List (FileInfo × String)) : Prop :=
  ∀ fp ∈ l, fp.1 ∈ S ∧ effHash fs0 cache0 fp.1 = fs0.hashOf fp.1.path

/-! ## Concrete instances used by counterexamples and witnesses -/

/-- Cancellation callback that never fires. -/
def noCancel : Nat → Bool := fun _ => false

/-- Cancellation callback that fires from the first hash-phase poll on. -/
def cancelFrom1 : Nat → Bool := fun n => decide (1 ≤ n)

/-- Cancellation callback that fires from poll 11 on — past the ten
stage-1 polls of a ten-candidate multi-stage run, so first observed during
stage-3 full hashing. -/
def cancelFrom11 : Nat → Bool := fun n => decide (11 ≤ n)

def exA : FileInfo := ⟨"/t/a", 1, 10⟩
def exB : FileInfo := ⟨"/t/b", 1, 11⟩
def exC : FileInfo := ⟨"/t/c", 1, 12⟩

/-- Environment where `/t/b` and `/t/c` are byte-identical and `/t/a`
differs. -/
def exFS1 : FS :=
  { hashOf := fun p =>
      if p == "/t/b" || p == "/t/c" then some "hbc"
      else if p == "/t/a" then some "ha" else none
    sampledOf := fun p =>
      if p == "/t/b" || p == "/t/c" then some "pbc"
      else if p == "/t/a" then some "pa" else none }

/-- Cache holding the full hash of `/t/a` under its current identity. -/
def exCache1 : HashCache := [⟨"/t/a", 1, 10, "ha"⟩]

def exPa : FileInfo := ⟨"/t/a", 5, 0⟩
def exPb : FileInfo := ⟨"/t/b", 5, 1⟩
def exPc : FileInfo := ⟨"/t/c", 7, 2⟩
def exPd : FileInfo := ⟨"/t/d", 7, 3⟩

/-- Environment giving every path a distinct full hash. -/
def exFS3 : FS :=
  { hashOf := fun p => some ("H" ++ p), sampledOf := fun p => some ("S" ++ p) }

/-- Cache holding the identical full hash of `/t/a` and `/t/b`. -/
def exCache3 : HashCache := [⟨"/t/a", 5, 0, "h"⟩, ⟨"/t/b", 5, 1, "h"⟩]

/-- 6 MB, above the 5 MB multi-stage threshold. -/
def bigSize : Nat := 6 * 1024 * 1024

/-- Ten files of 6 MB sharing one size bucket; `/m/f0` and `/m/f1` are
byte-identical, the rest pairwise distinct. -/
def exTree4 : List FileInfo :=
  (List.range 10).map (fun n => ⟨"/m/f" ++ toString n, bigSize, Int.ofNat n⟩)

/-- Environment matching `exTree4`: only `/m/f0` and `/m/f1` collide, in
both the sampled and the full digest. -/
def exFS4 : FS :=
  { hashOf := fun p =>
      if p == "/m/f0" || p == "/m/f1" then some "dup" else some ("u" ++ p)
    sampledOf := fun p =>
      if p == "/m/f0" || p == "/m/f1" then some "sdup" else some ("s" ++ p) }

/-- Serial configuration: no parallelism, multi-stage enabled. -/
def exCfgMS : Config := ⟨false, true, false⟩

/-- Parallel configuration: thread pool, multi-stage disabled. -/
def exCfgPar : Config := ⟨true, false, false⟩

/-- Fully serial configuration. -/
def exCfgSerial : Config := ⟨false, false, false⟩

/-- First `find_duplicates` run on `exTree4` with an empty cache. -/
def exRun1 : FindResult :=
  find_duplicates exFS4 exCfgMS (some []) noCancel id exTree4

/-- Second run on the unmodified `exTree4`, reusing the first run's
cache. -/
def exRun2 : FindResult :=
  find_duplicates exFS4 exCfgMS exRun1.cache noCancel id exTree4

/-- A deny-listed-by-name-but-not-exact directory entry. -/
def exThumbsBak : DirEntry :=
  ⟨"/r/Thumbs.db.bak", "Thumbs.db.bak", ".bak", some (9, 0)⟩

/-! ## Helper lemmas -/

theorem length_filter_add_length_filter_not (c : List CacheEntry)
    (q : CacheEntry → Bool) :
    (c.filter (fun e => !(q e))).length + (c.filter q).length = c.length := by
  induction c with
  | nil => rfl
  | cons e rest ih =>
    by_cases h : q e = true <;> simp [List.filter_cons, h, ← ih] <;> omega

theorem foldl_add_eq_add_sum (φ : DuplicateGroup → Int)
    (l : List DuplicateGroup) (a : Int) :
    l.foldl (fun w g => w + φ g) a = a + (l.map φ).sum := by
  induction l generalizing a with
  | nil => simp
  | cons g rest ih => simp [ih, add_assoc]

/-! ## C7: cache round trip -/

/-- C7: after `set(path, size, mtime, h)`, `get` with the exact identity
returns `h`, `get` with a different size or a different mtime returns
none, and a later `set` for the same path replaces the entry outright. -/
theorem cache_set_get_roundtrip (c : HashCache) (p : String) (s : Nat)
    (m : Int) (h : String) :
    (HashCache.set c p s m h).get p s m = some h
    ∧ (∀ s', s' ≠ s → (HashCache.set c p s m h).get p s' m = none)
    ∧ (∀ m', m' ≠ m → (HashCache.set c p s m h).get p s m' = none)
    ∧ (∀ s2 m2 h2,
        (HashCache.set c p s m h).set p s2 m2 h2 = c.set p s2 m2 h2) := by
  have hrest : ∀ e ∈ c.filter (fun e => e.path != p),
      ∀ s' : Nat, ∀ m' : Int,
      (e.path == p && e.size == s' && e.mtime == m') = false := by
    intro e he s' m'
    have hp : (e.path != p) = true := (List.mem_filter.mp he).2
    simp only [bne_iff_ne, ne_eq] at hp
    simp [hp]
  refine ⟨?_, ?_, ?_, ?_⟩
  · simp [HashCache.set, HashCache.get, List.find?_cons]
  · intro s' hs'
    have hnone : List.find?
        (fun e => e.path == p && e.size == s' && e.mtime == m)
        (⟨p, s, m, h⟩ :: c.filter (fun e => e.path != p)) = none := by
      rw [List.find?_eq_none]
      intro e he
      rcases List.mem_cons.mp he with rfl | hmem
      · simp [Ne.symm hs']
      · simp [hrest e hmem s' m]
    simp [HashCache.set, HashCache.get, hnone]
  · intro m' hm'
    have hnone : List.find?
        (fun e => e.path == p && e.size == s && e.mtime == m')
        (⟨p, s, m, h⟩ :: c.filter (fun e => e.path != p)) = none := by
      rw [List.find?_eq_none]
      intro e he
      rcases List.mem_cons.mp he with rfl | hmem
      · simp [Ne.symm hm']
      · simp [hrest e hmem s m']
    simp [HashCache.set, HashCache.get, hnone]
  · intro s2 m2 h2
    simp [HashCache.set, List.filter_cons, List.filter_filter]

/-- C7 witness: the round trip evaluated at a concrete entry. -/
theorem cache_set_get_roundtrip_witness :
    (HashCache.set [] "/w/x" 4 7 "h9").get "/w/x" 4 7 = some "h9"
    ∧ (HashCache.set [] "/w/x" 4 7 "h9").get "/w/x" 5 7 = none
    ∧ (HashCache.set [] "/w/x" 4 7 "h9").get "/w/x" 4 8 = none
    ∧ (HashCache.set [] "/w/x" 4 7 "h9").set "/w/x" 6 9 "h10"
        = HashCache.set [] "/w/x" 6 9 "h10" := by
  obtain ⟨h1, h2, h3, h4⟩ := cache_set_get_roundtrip [] "/w/x" 4 7 "h9"
  exact ⟨h1, h2 5 (by decide), h3 8 (by decide), h4 6 9 "h10"⟩

/-! ## C2: invalidation is plain string-prefix based, not boundary-aware -/

/-- C2 counterexample: the sibling path `/a/bc` (which merely shares the
string prefix `/a/b`) IS invalidated when `/a/b` is invalidated —
the claim says it never is. -/
theorem invalidate_removes_sibling :
    (HashCache.invalidateUnder [⟨"/a/bc", 1, 0, "h"⟩] "/a/b").1 = []
    ∧ (HashCache.invalidateUnder [⟨"/a/bc", 1, 0, "h"⟩] "/a/b").2 = 1 := by
  decide

/-- C2 amended: invalidation by a (normalised, metacharacter-free) path
argument removes exactly the entries whose path has it as a plain string
prefix — segment boundaries play no role — and reports the number of
removed rows. -/
theorem invalidate_exactly_string_leads (c : HashCache) (pfx : String)
    (e : CacheEntry) :
    (e ∈ (HashCache.invalidateUnder c pfx).1
      ↔ e ∈ c ∧ strStarts e.path pfx = false)
    ∧ (HashCache.invalidateUnder c pfx).1.length
        + (HashCache.invalidateUnder c pfx).2 = c.length := by
  constructor
  · simp [HashCache.invalidateUnder, List.mem_filter]
  · exact length_filter_add_length_filter_not c (fun e => strStarts e.path pfx)

/-! ## C10: session hit rate -/

/-- C10: with a cache present, the reported hit rate is 0 when no cache
request was recorded and `hits / (hits + misses)` otherwise — the guard
prevents any division by zero. -/
theorem cache_stats_hit_rate (c : HashCache) (hits misses : Nat) :
    (hits + misses = 0 → (get_cache_stats (some c) hits misses).hitRate = 0)
    ∧ (0 < hits + misses →
        (get_cache_stats (some c) hits misses).hitRate
          = (hits : ℚ) / ((hits : ℚ) + (misses : ℚ))) := by
  constructor
  · intro h0
    simp [get_cache_stats, StatsResult.hitRate, h0]
  · intro hpos
    simp [get_cache_stats, StatsResult.hitRate, hpos]

/-- C10 witness: the hit rate at zero requests and at 3 hits / 1 miss. -/
theorem cache_stats_hit_rate_witness :
    (get_cache_stats (some []) 0 0).hitRate = 0
    ∧ (get_cache_stats (some []) 3 1).hitRate = (3 : ℚ) / ((3 : ℚ) + (1 : ℚ)) := by
  exact ⟨(cache_stats_hit_rate [] 0 0).1 rfl,
         (cache_stats_hit_rate [] 3 1).2 (by decide)⟩

/-! ## C6: wasted-space law -/

/-- C6: `get_total_wasted_space` sums `total_size - files[0].size` over the
groups; on well-formed groups (equal member sizes `s`, `total_size = s·k`)
each group of `k` members of size `s` contributes exactly `(k - 1)·s`. -/
theorem wasted_space_law (gs : List DuplicateGroup)
    (hg : ∀ g ∈ gs, g.files ≠ []
          ∧ (∀ f ∈ g.files, f.size = g.files.headI.size)
          ∧ g.total_size = g.files.headI.size * g.files.length) :
    get_total_wasted_space gs
      = (gs.map (fun g => (g.total_size : Int) - (g.files.headI.size : Int))).sum
    ∧ get_total_wasted_space gs
      = (gs.map (fun g =>
          ((g.files.length : Int) - 1) * (g.files.headI.size : Int))).sum := by
  have h1 : get_total_wasted_space gs
      = (gs.map (fun g => (g.total_size : Int) - (g.files.headI.size : Int))).sum := by
    simpa [get_total_wasted_space] using
      foldl_add_eq_add_sum
        (fun g => (g.total_size : Int) - (g.files.headI.size : Int)) gs 0
  refine ⟨h1, h1.trans ?_⟩
  congr 1
  apply List.map_congr_left
  intro g hgmem
  obtain ⟨-, -, htot⟩ := hg g hgmem
  rw [htot]
  push_cast
  ring

/-- C6 witness: a pair of 5-byte duplicates wastes exactly 5 bytes. -/
theorem wasted_space_law_witness :
    get_total_wasted_space [⟨"h", [exPa, exPb], 10⟩]
      = (([⟨"h", [exPa, exPb], 10⟩] : List DuplicateGroup).map (fun g =>
          ((g.files.length : Int) - 1) * (g.files.headI.size : Int))).sum := by
  exact (wasted_space_law [⟨"h", [exPa, exPb], 10⟩] (by decide)).2

/-! ## C8: strategy selection -/

/-- C8: with the multi-stage toggle on, the multi-stage strategy is chosen
exactly when at least 10 surviving candidates exceed 5 MB; otherwise the
parallel path requires the parallel toggle and more than one candidate
group, and everything else falls to the serial path. -/
theorem strategy_selection (cfg : Config) (pd : List (List FileInfo))
    (hms : cfg.use_multi_stage = true) :
    (chooseStrategy cfg pd = .multiStage ↔ 10 ≤ countLarge pd)
    ∧ (chooseStrategy cfg pd = .par
        ↔ countLarge pd < 10 ∧ cfg.use_parallel = true ∧ 1 < pd.length)
    ∧ (chooseStrategy cfg pd = .serial
        ↔ countLarge pd < 10
          ∧ (cfg.use_parallel = false ∨ pd.length ≤ 1)) := by
  by_cases h10 : 10 ≤ countLarge pd
  · simp [chooseStrategy, should_use_multi_stage, hms, h10, Nat.not_lt.mpr h10]
  · cases hpar : cfg.use_parallel
    · simp [chooseStrategy, should_use_multi_stage, hms, h10, hpar,
        Nat.lt_of_not_le h10]
    · by_cases hlen : 1 < pd.length
      · simp [chooseStrategy, should_use_multi_stage, hms, h10, hpar, hlen,
          Nat.lt_of_not_le h10]
      · simp [chooseStrategy, should_use_multi_stage, hms, h10, hpar, hlen,
          Nat.lt_of_not_le h10]
        omega

/-- C8 witness: ten 6 MB candidates select the multi-stage strategy; four
small candidates in two groups with the parallel toggle off select the
serial path. -/
theorem strategy_selection_witness :
    chooseStrategy exCfgMS [exTree4] = .multiStage
    ∧ chooseStrategy exCfgMS [[exPa, exPb], [exPc, exPd]] = .serial := by
  refine ⟨(strategy_selection exCfgMS [exTree4] rfl).1.mpr (by decide),
    (strategy_selection exCfgMS [[exPa, exPb], [exPc, exPd]] rfl).2.2.mpr
      ⟨by decide, Or.inl rfl⟩⟩

/-! ## C9: deny-listed OS metadata names match by leading string -/

/-- C9: any file whose name begins with a deny-listed OS metadata name —
exact or not, e.g. `Thumbs.db.bak` — is marked skipped and never appears in
the enumeration output. -/
theorem skip_names_by_leading_match :
    (∀ (exts : Option (List String)) (e : DirEntry),
      (∃ n ∈ SKIP_NAMES, strStarts e.name n = true) →
      should_skip_file exts e = true)
    ∧ (∀ (exts : Option (List String)) (es : List DirEntry) (p : String),
        (∀ e ∈ es, e.path = p → ∃ n ∈ SKIP_NAMES, strStarts e.name n = true) →
        ∀ r ∈ scan_directory exts es, r.path ≠ p) := by
  have part1 : ∀ (exts : Option (List String)) (e : DirEntry),
      (∃ n ∈ SKIP_NAMES, strStarts e.name n = true) →
      should_skip_file exts e = true := by
    intro exts e ⟨n, hn, hs⟩
    have hany : SKIP_NAMES.any (fun n => strStarts e.name n) = true :=
      List.any_eq_true.mpr ⟨n, hn, hs⟩
    unfold should_skip_file
    by_cases hext : SKIP_EXTENSIONS.contains e.suffix.toLower = true
    · rw [if_pos hext]
    · rw [if_neg hext, if_pos hany]
  refine ⟨part1, ?_⟩
  intro exts es p hall r hr hrp
  obtain ⟨e, he, hfe⟩ := List.mem_filterMap.mp hr
  by_cases hskip : should_skip_file exts e = true
  · rw [if_pos hskip] at hfe
    exact Option.noConfusion hfe
  · rw [if_neg hskip] at hfe
    have hpath : r.path = e.path := by
      cases hstat : e.stat with
      | none =>
        rw [hstat] at hfe
        exact Option.noConfusion hfe
      | some sm =>
        rw [hstat] at hfe
        simp only [Option.map_some'] at hfe
        injection hfe with hirec
        subst hirec
        rfl
    exact hskip (part1 exts e (hall e he (hpath ▸ hrp)))

/-- C9 witness: `Thumbs.db.bak` is skipped and absent from the scan. -/
theorem skip_names_by_leading_match_witness :
    should_skip_file none exThumbsBak = true
    ∧ ∀ r ∈ scan_directory none [exThumbsBak], r.path ≠ "/r/Thumbs.db.bak" := by
  refine ⟨skip_names_by_leading_match.1 none exThumbsBak
      ⟨"Thumbs.db", by decide, by decide⟩,
    skip_names_by_leading_match.2 none [exThumbsBak] "/r/Thumbs.db.bak" ?_⟩
  intro e he _
  rcases List.mem_singleton.mp he with rfl
  exact ⟨"Thumbs.db", by decide, by decide⟩

/-! ## C1: multi-stage cache hit aborts the whole pass (code bug) -/

/-- C1, evaluated at the failing input: with `/t/a` cached, the multi-stage
pass returns a dict holding only `/t/a` — the byte-identical pair
`/t/b`,`/t/c` is never processed — while the very same candidates with no
cache hit produce the pair's group.  The early `return` inside the stage-1
loop discards all other candidates instead of short-circuiting only the hit
file. -/
theorem multi_stage_cache_hit_aborts_pass :
    (calculate_hashes_multi_stage exFS1 exCfgMS (some exCache1) noCancel id
        [[exA, exB, exC]] 0).groups = [("ha", [exA])]
    ∧ (calculate_hashes_multi_stage exFS1 exCfgMS (some []) noCancel id
        [[exA, exB, exC]] 0).groups = [("hbc", [exB, exC])] := by
  decide

/-! ## C4: rerun on an unmodified tree (code bug via C1) -/

/-- C4, evaluated at the failing input: on the ten-large-file tree the
first run finds the duplicate pair, but the cached rerun returns no groups
at all and performs exactly one cache request (the first candidate's hit
takes the buggy early return, so the other nine candidates are never
consulted). -/
theorem rerun_multi_stage_not_idempotent :
    exRun1.groups ≠ [] ∧ exRun2.groups = []
    ∧ exRun2.hits = 1 ∧ exRun2.misses = 0 := by
  decide

/-! ## C3: cancellation mid-hash-phase -/

/-- C3 counterexample: on the thread-pool parallel path, a cancellation
observed during the hash phase (`cancelled = true`) still returns the
duplicate group assembled from the cache hits collected before the
cancellation — not the empty list the claim requires on every path. -/
theorem parallel_cancel_returns_partial_groups :
    (find_duplicates exFS3 exCfgPar (some exCache3) cancelFrom1 id
        [exPa, exPb, exPc, exPd]).cancelled = true
    ∧ (find_duplicates exFS3 exCfgPar (some exCache3) cancelFrom1 id
        [exPa, exPb, exPc, exPd]).groups = [⟨"h", [exPa, exPb], 10⟩] := by
  decide

/-- The serial hash loop observes a cancellation whose index falls inside
its polling window (one poll per candidate, consecutive indices). -/
theorem serialLoop_cancelled_of_window (fs0 : FS) (cache0 : Option HashCache)
    (cancel : Nat → Bool) :
    ∀ (l : List FileInfo) (st : SerialSt),
    (∃ j, st.poll ≤ j ∧ j < st.poll + l.length ∧ cancel j = true) →
    (serialLoop fs0 cache0 cancel l st).2 = true := by
  intro l
  induction l with
  | nil =>
    intro st ⟨j, hj1, hj2, _⟩
    simp only [List.length_nil, Nat.add_zero] at hj2
    omega
  | cons f rest ih =>
    intro st ⟨j, hj1, hj2, hj3⟩
    by_cases hc : cancel st.poll = true
    · simp [serialLoop, hc]
    · have hne : j ≠ st.poll := fun he => hc (he ▸ hj3)
      simp only [List.length_cons] at hj2
      simp only [serialLoop, hc, if_false, Bool.false_eq_true]
      exact ih _ ⟨j, by simp only; omega, by simp only; omega, hj3⟩

/-- Stage 1 of the multi-stage pass either observes a cancellation inside
its polling window or takes the cache-hit early return first. -/
theorem msStage1_stops_of_window (fs0 : FS) (cache0 : Option HashCache)
    (cancel : Nat → Bool) :
    ∀ (l : List FileInfo) (st : MsSt),
    (∃ j, st.poll ≤ j ∧ j < st.poll + l.length ∧ cancel j = true) →
    (∃ st', msStage1 fs0 cache0 cancel l st = .cancelled st')
    ∨ (∃ h f st', msStage1 fs0 cache0 cancel l st = .cacheHit h f st') := by
  intro l
  induction l with
  | nil =>
    intro st ⟨j, hj1, hj2, _⟩
    simp only [List.length_nil, Nat.add_zero] at hj2
    omega
  | cons f rest ih =>
    intro st ⟨j, hj1, hj2, hj3⟩
    by_cases hc : cancel st.poll = true
    · exact Or.inl ⟨{ st with poll := st.poll + 1 }, by simp [msStage1, hc]⟩
    · have hne : j ≠ st.poll := fun he => hc (he ▸ hj3)
      have hwin : ∃ j', st.poll + 1 ≤ j'
          ∧ j' < st.poll + 1 + rest.length ∧ cancel j' = true := by
        simp only [List.length_cons] at hj2
        exact ⟨j, by omega, by omega, hj3⟩
      cases cache0 with
      | none =>
        cases hsam : fs0.sampledOf f.path with
        | none =>
          simp only [msStage1, hc, if_false, Bool.false_eq_true, hsam]
          exact ih _ hwin
        | some ph =>
          simp only [msStage1, hc, if_false, Bool.false_eq_true, hsam]
          exact ih _ hwin
      | some c =>
        cases hget : c.get f.path f.size f.mtime with
        | some h =>
          simp only [msStage1, hc, if_false, Bool.false_eq_true, hget]
          exact Or.inr ⟨h, f, _, rfl⟩
        | none =>
          cases hsam : fs0.sampledOf f.path with
          | none =>
            simp only [msStage1, hc, if_false, Bool.false_eq_true, hget, hsam]
            exact ih _ hwin
          | some ph =>
            simp only [msStage1, hc, if_false, Bool.false_eq_true, hget, hsam]
            exact ih _ hwin

/-- A stage-3 serial full-hash loop that observed a cancellation returned
the empty group map. -/
theorem fullSerialLoop_empty_of_cancelled (fs0 : FS) (cancel : Nat → Bool) :
    ∀ (l : List FileInfo) (gs : List (String × List FileInfo)) (poll : Nat),
    (fullSerialLoop fs0 cancel l gs poll).2.2 = true →
    (fullSerialLoop fs0 cancel l gs poll).1 = [] := by
  intro l
  induction l with
  | nil =>
    intro gs poll h
    simp [fullSerialLoop] at h
  | cons f rest ih =>
    intro gs poll h
    by_cases hc : cancel poll = true
    · simp [fullSerialLoop, hc]
    · cases hh : fs0.hashOf f.path with
      | some hv =>
        simp only [fullSerialLoop, hc, if_false, Bool.false_eq_true, hh] at h ⊢
        exact ih _ _ h
      | none =>
        simp only [fullSerialLoop, hc, if_false, Bool.false_eq_true, hh] at h ⊢
        exact ih _ _ h

/-- A stage-3 parallel full-hash collection loop that observed a
cancellation returned the empty group map. -/
theorem fullParallelLoop_empty_of_cancelled (fs0 : FS) (ce : Bool)
    (cancel : Nat → Bool) :
    ∀ (l : List FileInfo) (gs : List (String × List FileInfo))
      (toSave : List CacheEntry) (poll : Nat),
    (fullParallelLoop fs0 ce cancel l gs toSave poll).2.2.2 = true →
    (fullParallelLoop fs0 ce cancel l gs toSave poll).1 = [] := by
  intro l
  induction l with
  | nil =>
    intro gs toSave poll h
    simp [fullParallelLoop] at h
  | cons f rest ih =>
    intro gs toSave poll h
    by_cases hc : cancel poll = true
    · simp [fullParallelLoop, hc]
    · cases hh : fs0.hashOf f.path with
      | some hv =>
        simp only [fullParallelLoop, hc, if_false, Bool.false_eq_true,
          hh] at h ⊢
        exact ih _ _ _ h
      | none =>
        simp only [fullParallelLoop, hc, if_false, Bool.false_eq_true,
          hh] at h ⊢
        exact ih _ _ _ h

/-- C3 amended: on the serial and multi-stage paths, (1) whenever the hash
phase observed a cancellation — at a stage-1 poll or during stage-3 full
hashing alike — `find_duplicates` returns an empty duplicate-group list,
and (2) a cancellation firing anywhere inside the stage-1 polling window
yields an empty list even when the cache-hit early return pre-empts its
observation.  (The counterexample shows the thread-pool/process-pool
parallel path instead returns the groups accumulated before the
cancellation was observed, assembled from cache hits and already-collected
results.) -/
theorem cancel_mid_hash_returns_empty :
    (∀ (fs0 : FS) (cfg : Config) (cache0 : Option HashCache)
      (cancel : Nat → Bool) (reorder : List FileInfo → List FileInfo)
      (files : List FileInfo),
      (chooseStrategy cfg (sizeGroups files) = .serial
        ∨ chooseStrategy cfg (sizeGroups files) = .multiStage) →
      (find_duplicates fs0 cfg cache0 cancel reorder files).cancelled
        = true →
      (find_duplicates fs0 cfg cache0 cancel reorder files).groups = [])
    ∧ (∀ (fs0 : FS) (cfg : Config) (cache0 : Option HashCache)
      (cancel : Nat → Bool) (reorder : List FileInfo → List FileInfo)
      (files : List FileInfo),
      (∃ j, 1 ≤ j ∧ j < 1 + (sizeGroups files).flatten.length
        ∧ cancel j = true) →
      (chooseStrategy cfg (sizeGroups files) = .serial
        ∨ chooseStrategy cfg (sizeGroups files) = .multiStage) →
      (find_duplicates fs0 cfg cache0 cancel reorder files).groups = []) := by
  constructor
  · intro fs0 cfg cache0 cancel reorder files hstrat hcanc
    by_cases hc0 : cancel 0 = true
    · simp [find_duplicates, hc0] at hcanc
    · rcases hstrat with hstrat | hstrat
      · have hr : (serialLoop fs0 cache0 cancel (sizeGroups files).flatten
            ⟨[], [], 0, 0, 1⟩).2 = true := by
          simpa [find_duplicates, hc0, hstrat, calculate_hashes_serial]
            using hcanc
        have hphase : (calculate_hashes_serial fs0 cache0 cancel
            (sizeGroups files) 1).groups = [] := by
          simp [calculate_hashes_serial, hr]
        simp [find_duplicates, hc0, hstrat, hphase, sortByTotalDesc]
      · cases hms : msStage1 fs0 cache0 cancel (sizeGroups files).flatten
            ⟨[], 0, 0, 1⟩ with
        | cancelled st =>
          have hphase : (calculate_hashes_multi_stage fs0 cfg cache0 cancel
              reorder (sizeGroups files) 1).groups = [] := by
            simp [calculate_hashes_multi_stage, hms]
          simp [find_duplicates, hc0, hstrat, hphase, sortByTotalDesc]
        | cacheHit h f st =>
          simp [find_duplicates, hc0, hstrat, calculate_hashes_multi_stage,
            hms] at hcanc
        | done st =>
          by_cases hbr : (cfg.use_parallel
              && decide (1 < (secondStage st.forFull).length)) = true
          · have hsubc : (fullParallelLoop fs0 cache0.isSome cancel
                (reorder (secondStage st.forFull)) [] [] st.poll).2.2.2
                = true := by
              simpa [find_duplicates, hc0, hstrat,
                calculate_hashes_multi_stage, hms, hbr,
                calculate_full_hashes_parallel] using hcanc
            have hsubg := fullParallelLoop_empty_of_cancelled fs0
              cache0.isSome cancel (reorder (secondStage st.forFull)) [] []
              st.poll hsubc
            have hphase : (calculate_hashes_multi_stage fs0 cfg cache0
                cancel reorder (sizeGroups files) 1).groups = [] := by
              simp [calculate_hashes_multi_stage, hms, hbr,
                calculate_full_hashes_parallel, hsubg]
            simp [find_duplicates, hc0, hstrat, hphase, sortByTotalDesc]
          · have hsubc : (fullSerialLoop fs0 cancel
                (secondStage st.forFull) [] st.poll).2.2 = true := by
              simpa [find_duplicates, hc0, hstrat,
                calculate_hashes_multi_stage, hms, hbr,
                calculate_full_hashes_serial] using hcanc
            have hsubg := fullSerialLoop_empty_of_cancelled fs0 cancel
              (secondStage st.forFull) [] st.poll hsubc
            have hphase : (calculate_hashes_multi_stage fs0 cfg cache0
                cancel reorder (sizeGroups files) 1).groups = [] := by
              simp [calculate_hashes_multi_stage, hms, hbr,
                calculate_full_hashes_serial, hsubg]
            simp [find_duplicates, hc0, hstrat, hphase, sortByTotalDesc]
  · intro fs0 cfg cache0 cancel reorder files hwin hstrat
    by_cases hc0 : cancel 0 = true
    · simp [find_duplicates, hc0]
    · rcases hstrat with hstrat | hstrat
      · have hphase : (calculate_hashes_serial fs0 cache0 cancel
            (sizeGroups files) 1).groups = [] := by
          have hcan := serialLoop_cancelled_of_window fs0 cache0 cancel
            (sizeGroups files).flatten ⟨[], [], 0, 0, 1⟩ (by simpa using hwin)
          simp [calculate_hashes_serial, hcan]
        simp [find_duplicates, hc0, hstrat, hphase, sortByTotalDesc]
      · have hstop := msStage1_stops_of_window fs0 cache0 cancel
          (sizeGroups files).flatten ⟨[], 0, 0, 1⟩ (by simpa using hwin)
        rcases hstop with ⟨st', hst⟩ | ⟨h, f, st', hst⟩
        · have hphase : (calculate_hashes_multi_stage fs0 cfg cache0 cancel
              reorder (sizeGroups files) 1).groups = [] := by
            simp [calculate_hashes_multi_stage, hst]
          simp [find_duplicates, hc0, hstrat, hphase, sortByTotalDesc]
        · have hphase : (calculate_hashes_multi_stage fs0 cfg cache0 cancel
              reorder (sizeGroups files) 1).groups = [(h, [f])] := by
            simp [calculate_hashes_multi_stage, hst]
          simp [find_duplicates, hc0, hstrat, hphase, sortByTotalDesc]

/-- C3 amended witness: a ten-candidate multi-stage run whose cancellation
is first observed during stage-3 full hashing (poll 11) returns no groups,
and the serial path with cancellation from the first hash-phase poll
returns no groups. -/
theorem cancel_mid_hash_returns_empty_witness :
    (find_duplicates exFS4 exCfgMS (some []) cancelFrom11 id
        exTree4).cancelled = true
    ∧ (find_duplicates exFS4 exCfgMS (some []) cancelFrom11 id
        exTree4).groups = []
    ∧ (find_duplicates exFS3 exCfgSerial (some []) cancelFrom1 id
        [exPa, exPb]).groups = [] := by
  refine ⟨by decide,
    cancel_mid_hash_returns_empty.1 exFS4 exCfgMS (some []) cancelFrom11 id
      exTree4 (Or.inr (by decide)) (by decide),
    cancel_mid_hash_returns_empty.2 exFS3 exCfgSerial (some []) cancelFrom1
      id [exPa, exPb] ⟨1, by decide, by decide, by decide⟩
      (Or.inl (by decide))⟩

/-! ## Group-map bookkeeping lemmas (towards the grouping invariant) -/

/-- A per-member property is preserved by a `defaultdict` append when the
new member satisfies it at the key it is filed under. -/
theorem addToGroup_pres (P : FileInfo → String → Prop) :
    ∀ (gs : List (String × List FileInfo)) (h : String) (f : FileInfo),
    (∀ p ∈ gs, ∀ q ∈ p.2, P q p.1) → P f h →
    ∀ p ∈ addToGroup gs h f, ∀ q ∈ p.2, P q p.1 := by
  intro gs
  induction gs with
  | nil =>
    intro h f _ hPf p hp q hq
    simp only [addToGroup, List.mem_singleton] at hp
    subst hp
    simp only [List.mem_singleton] at hq
    subst hq
    exact hPf
  | cons kg rest ih =>
    rcases kg with ⟨k, fs⟩
    intro h f hall hPf p hp q hq
    by_cases hk : (k == h) = true
    · simp only [addToGroup, hk, if_true] at hp
      rcases List.mem_cons.mp hp with rfl | hmem
      · rcases List.mem_append.mp hq with hq1 | hq2
        · exact hall (k, fs) (List.mem_cons_self _ _) q hq1
        · have hqf : q = f := by simpa using hq2
          subst hqf
          have hkh : k = h := by simpa using hk
          rw [hkh]
          exact hPf
      · exact hall _ (List.mem_cons_of_mem _ hmem) q hq
    · simp only [addToGroup, hk, if_false] at hp
      rcases List.mem_cons.mp hp with rfl | hmem
      · exact hall _ (List.mem_cons_self _ _) q hq
      · exact ih h f (fun p' hp' => hall p' (List.mem_cons_of_mem _ hp')) hPf
          p hmem q hq

/-- Every member of every bucket built by `groupBySampled` was queued with
exactly that bucket's sampled hash. -/
theorem groupBySampled_from (l : List (FileInfo × String)) :
    ∀ p ∈ groupBySampled l, ∀ q ∈ p.2, (q, p.1) ∈ l := by
  suffices hgen : ∀ (l0 : List (FileInfo × String))
      (acc : List (String × List FileInfo)),
      (∀ p ∈ acc, ∀ q ∈ p.2, (q, p.1) ∈ l) → (∀ x ∈ l0, x ∈ l) →
      ∀ p ∈ l0.foldl (fun a fp => addToGroup a fp.2 fp.1) acc,
      ∀ q ∈ p.2, (q, p.1) ∈ l by
    intro p hp q hq
    exact hgen l [] (by simp) (fun x hx => hx) p hp q hq
  intro l0
  induction l0 with
  | nil =>
    intro acc hacc _ p hp q hq
    exact hacc p hp q hq
  | cons fp rest ih =>
    intro acc hacc hsub p hp q hq
    simp only [List.foldl_cons] at hp
    refine ih (addToGroup acc fp.2 fp.1)
      (addToGroup_pres (fun q' k => (q', k) ∈ l) acc fp.2 fp.1 hacc ?_)
      (fun x hx => hsub x (List.mem_cons_of_mem _ hx)) p hp q hq
    simpa using hsub fp (List.mem_cons_self _ _)

/-- Membership in the bucket-concatenating fold of stage 2. -/
theorem mem_foldl_append (gl : List (String × List FileInfo)) :
    ∀ (acc : List FileInfo) (f : FileInfo),
    f ∈ gl.foldl (fun a g => a ++ g.2) acc → f ∈ acc ∨ ∃ g ∈ gl, f ∈ g.2 := by
  induction gl with
  | nil =>
    intro acc f hf
    exact Or.inl hf
  | cons g rest ih =>
    intro acc f hf
    simp only [List.foldl_cons] at hf
    rcases ih _ f hf with hacc | ⟨g', hg', hfg'⟩
    · rcases List.mem_append.mp hacc with h1 | h2
      · exact Or.inl h1
      · exact Or.inr ⟨g, List.mem_cons_self _ _, h2⟩
    · exact Or.inr ⟨g', List.mem_cons_of_mem _ hg', hfg'⟩

/-- Every file surviving to stage 3 was queued in stage 1 (with some
sampled hash). -/
theorem mem_secondStage (l : List (FileInfo × String)) (f : FileInfo)
    (hf : f ∈ secondStage l) : ∃ ph, (f, ph) ∈ l := by
  unfold secondStage at hf
  rcases mem_foldl_append _ [] f hf with h0 | ⟨g, hg, hfg⟩
  · simp at h0
  · exact ⟨g.1, groupBySampled_from l g (List.mem_filter.mp hg).1 f hfg⟩

/-- A per-member property is preserved by a size-bucket append. -/
theorem addToSizeGroup_pres (P : FileInfo → Prop) :
    ∀ (gs : List (Nat × List FileInfo)) (f : FileInfo),
    (∀ p ∈ gs, ∀ q ∈ p.2, P q) → P f →
    ∀ p ∈ addToSizeGroup gs f, ∀ q ∈ p.2, P q := by
  intro gs
  induction gs with
  | nil =>
    intro f _ hPf p hp q hq
    simp only [addToSizeGroup, List.mem_singleton] at hp
    subst hp
    simp only [List.mem_singleton] at hq
    subst hq
    exact hPf
  | cons kg rest ih =>
    rcases kg with ⟨s, fs⟩
    intro f hall hPf p hp q hq
    by_cases hs : (s == f.size) = true
    · simp only [addToSizeGroup, hs, if_true] at hp
      rcases List.mem_cons.mp hp with rfl | hmem
      · rcases List.mem_append.mp hq with hq1 | hq2
        · exact hall (s, fs) (List.mem_cons_self _ _) q hq1
        · have hqf : q = f := by simpa using hq2
          subst hqf
          exact hPf
      · exact hall _ (List.mem_cons_of_mem _ hmem) q hq
    · simp only [addToSizeGroup, hs, if_false] at hp
      rcases List.mem_cons.mp hp with rfl | hmem
      · exact hall _ (List.mem_cons_self _ _) q hq
      · exact ih f (fun p' hp' => hall p' (List.mem_cons_of_mem _ hp')) hPf
          p hmem q hq

/-- Members of the surviving size buckets all come from the scanned
list. -/
theorem sizeGroups_sub (files : List FileInfo) :
    ∀ g ∈ sizeGroups files, ∀ f ∈ g, f ∈ files := by
  suffices hgen : ∀ (l0 : List FileInfo) (acc : List (Nat × List FileInfo)),
      (∀ p ∈ acc, ∀ q ∈ p.2, q ∈ files) → (∀ x ∈ l0, x ∈ files) →
      ∀ p ∈ l0.foldl addToSizeGroup acc, ∀ q ∈ p.2, q ∈ files by
    intro g hg f hf
    unfold sizeGroups at hg
    obtain ⟨p, hp, hpg⟩ := List.mem_map.mp hg
    subst hpg
    exact hgen files [] (by simp) (fun x hx => hx) p
      (List.mem_filter.mp hp).1 f hf
  intro l0
  induction l0 with
  | nil =>
    intro acc hacc _ p hp q hq
    exact hacc p hp q hq
  | cons x rest ih =>
    intro acc hacc hsub p hp q hq
    simp only [List.foldl_cons] at hp
    exact ih (addToSizeGroup acc x)
      (addToSizeGroup_pres (fun q' => q' ∈ files) acc x hacc
        (hsub x (List.mem_cons_self _ _)))
      (fun y hy => hsub y (List.mem_cons_of_mem _ hy)) p hp q hq

/-- Insertion into the descending-by-total order adds no new elements. -/
theorem mem_insertByTotal :
    ∀ (l : List DuplicateGroup) (x y : DuplicateGroup),
    x ∈ insertByTotal y l → x = y ∨ x ∈ l := by
  intro l
  induction l with
  | nil =>
    intro x y hx
    simp only [insertByTotal, List.mem_singleton] at hx
    exact Or.inl hx
  | cons z rest ih =>
    intro x y hx
    by_cases hz : z.total_size < y.total_size
    · simp only [insertByTotal, if_pos hz] at hx
      rcases List.mem_cons.mp hx with rfl | hmem
      · exact Or.inl rfl
      · exact Or.inr hmem
    · simp only [insertByTotal, if_neg hz] at hx
      rcases List.mem_cons.mp hx with rfl | hmem
      · exact Or.inr (List.mem_cons_self _ _)
      · rcases ih x y hmem with h1 | h2
        · exact Or.inl h1
        · exact Or.inr (List.mem_cons_of_mem _ h2)

/-- `GroupsOk` survives filing a new member under its own effective
hash. -/
theorem groupsOk_addToGroup (hv : FileInfo → Option String)
    (S : List FileInfo) (gs : List (String × List FileInfo)) (h : String)
    (f : FileInfo) (hok : GroupsOk hv S gs) (hf : hv f = some h)
    (hfS : f ∈ S) : GroupsOk hv S (addToGroup gs h f) :=
  addToGroup_pres (fun q k => hv q = some k ∧ q ∈ S) gs h f hok ⟨hf, hfS⟩

/-- The empty group map is well-formed. -/
theorem groupsOk_nil (hv : FileInfo → Option String) (S : List FileInfo) :
    GroupsOk hv S [] := by
  intro p hp
  simp at hp

/-- The serial hash loop keeps the group map well-formed: each file is
filed under its effective hash (cache value on a hit, fresh digest on a
miss). -/
theorem serialLoop_groupsOk (fs0 : FS) (cache0 : Option HashCache)
    (cancel : Nat → Bool) (S : List FileInfo) :
    ∀ (l : List FileInfo) (st : SerialSt),
    GroupsOk (effHash fs0 cache0) S st.groups → (∀ f ∈ l, f ∈ S) →
    GroupsOk (effHash fs0 cache0) S
      (serialLoop fs0 cache0 cancel l st).1.groups := by
  intro l
  induction l with
  | nil =>
    intro st hok _
    exact hok
  | cons f rest ih =>
    intro st hok hsub
    have hfS : f ∈ S := hsub f (List.mem_cons_self _ _)
    have hsub' : ∀ g ∈ rest, g ∈ S := fun g hg =>
      hsub g (List.mem_cons_of_mem _ hg)
    by_cases hc : cancel st.poll = true
    · simpa [serialLoop, hc] using hok
    · cases cache0 with
      | some c =>
        cases hget : c.get f.path f.size f.mtime with
        | some h =>
          simp only [serialLoop, hc, if_false, Bool.false_eq_true, hget]
          exact ih _ (groupsOk_addToGroup _ _ _ _ _ hok
            (by simp [effHash, hget]) hfS) hsub'
        | none =>
          cases hh : fs0.hashOf f.path with
          | some h =>
            simp only [serialLoop, hc, if_false, Bool.false_eq_true, hget, hh]
            exact ih _ (groupsOk_addToGroup _ _ _ _ _ hok
              (by simp [effHash, hget, hh]) hfS) hsub'
          | none =>
            simp only [serialLoop, hc, if_false, Bool.false_eq_true, hget, hh]
            exact ih _ hok hsub'
      | none =>
        cases hh : fs0.hashOf f.path with
        | some h =>
          simp only [serialLoop, hc, if_false, Bool.false_eq_true, hh]
          exact ih _ (groupsOk_addToGroup _ _ _ _ _ hok
            (by simp [effHash, hh]) hfS) hsub'
        | none =>
          simp only [serialLoop, hc, if_false, Bool.false_eq_true, hh]
          exact ih _ hok hsub'

/-- The executor collection loops keep the group map well-formed whenever
every processed file's effective hash is the freshly computed one. -/
theorem parallelCalcLoop_groupsOk (fs0 : FS) (ce : Bool)
    (cancel : Nat → Bool) (S : List FileInfo)
    (hv : FileInfo → Option String) :
    ∀ (l : List FileInfo) (gs : List (String × List FileInfo))
      (toSave : List CacheEntry) (poll : Nat),
    GroupsOk hv S gs → (∀ f ∈ l, f ∈ S ∧ hv f = fs0.hashOf f.path) →
    GroupsOk hv S (parallelCalcLoop fs0 ce cancel l gs toSave poll).1 := by
  intro l
  induction l with
  | nil =>
    intro gs toSave poll hok _
    exact hok
  | cons f rest ih =>
    intro gs toSave poll hok hsub
    obtain ⟨hfS, hfv⟩ := hsub f (List.mem_cons_self _ _)
    have hsub' : ∀ g ∈ rest, g ∈ S ∧ hv g = fs0.hashOf g.path := fun g hg =>
      hsub g (List.mem_cons_of_mem _ hg)
    by_cases hc : cancel poll = true
    · simpa [parallelCalcLoop, hc] using hok
    · cases hh : fs0.hashOf f.path with
      | some h =>
        simp only [parallelCalcLoop, hc, if_false, Bool.false_eq_true, hh]
        exact ih _ _ _ (groupsOk_addToGroup _ _ _ _ _ hok (hh ▸ hfv) hfS) hsub'
      | none =>
        simp only [parallelCalcLoop, hc, if_false, Bool.false_eq_true, hh]
        exact ih _ _ _ hok hsub'

/-- Stage-3 serial full hashing keeps the group map well-formed (on
cancellation it returns the empty map). -/
theorem fullSerialLoop_groupsOk (fs0 : FS) (cancel : Nat → Bool)
    (S : List FileInfo) (hv : FileInfo → Option String) :
    ∀ (l : List FileInfo) (gs : List (String × List FileInfo)) (poll : Nat),
    GroupsOk hv S gs → (∀ f ∈ l, f ∈ S ∧ hv f = fs0.hashOf f.path) →
    GroupsOk hv S (fullSerialLoop fs0 cancel l gs poll).1 := by
  intro l
  induction l with
  | nil =>
    intro gs poll hok _
    exact hok
  | cons f rest ih =>
    intro gs poll hok hsub
    obtain ⟨hfS, hfv⟩ := hsub f (List.mem_cons_self _ _)
    have hsub' : ∀ g ∈ rest, g ∈ S ∧ hv g = fs0.hashOf g.path := fun g hg =>
      hsub g (List.mem_cons_of_mem _ hg)
    by_cases hc : cancel poll = true
    · simpa [fullSerialLoop, hc] using groupsOk_nil hv S
    · cases hh : fs0.hashOf f.path with
      | some h =>
        simp only [fullSerialLoop, hc, if_false, Bool.false_eq_true, hh]
        exact ih _ _ (groupsOk_addToGroup _ _ _ _ _ hok (hh ▸ hfv) hfS) hsub'
      | none =>
        simp only [fullSerialLoop, hc, if_false, Bool.false_eq_true, hh]
        exact ih _ _ hok hsub'

/-- Stage-3 parallel full hashing keeps the group map well-formed (on
cancellation it returns the empty map). -/
theorem fullParallelLoop_groupsOk (fs0 : FS) (ce : Bool)
    (cancel : Nat → Bool) (S : List FileInfo)
    (hv : FileInfo → Option String) :
    ∀ (l : List FileInfo) (gs : List (String × List FileInfo))
      (toSave : List CacheEntry) (poll : Nat),
    GroupsOk hv S gs → (∀ f ∈ l, f ∈ S ∧ hv f = fs0.hashOf f.path) →
    GroupsOk hv S (fullParallelLoop fs0 ce cancel l gs toSave poll).1 := by
  intro l
  induction l with
  | nil =>
    intro gs toSave poll hok _
    exact hok
  | cons f rest ih =>
    intro gs toSave poll hok hsub
    obtain ⟨hfS, hfv⟩ := hsub f (List.mem_cons_self _ _)
    have hsub' : ∀ g ∈ rest, g ∈ S ∧ hv g = fs0.hashOf g.path := fun g hg =>
      hsub g (List.mem_cons_of_mem _ hg)
    by_cases hc : cancel poll = true
    · simpa [fullParallelLoop, hc] using groupsOk_nil hv S
    · cases hh : fs0.hashOf f.path with
      | some h =>
        simp only [fullParallelLoop, hc, if_false, Bool.false_eq_true, hh]
        exact ih _ _ _ (groupsOk_addToGroup _ _ _ _ _ hok (hh ▸ hfv) hfS) hsub'
      | none =>
        simp only [fullParallelLoop, hc, if_false, Bool.false_eq_true, hh]
        exact ih _ _ _ hok hsub'

/-- With paths unique among the queried files, probing the batched result
by path agrees with an individual exact-identity `get`. -/
theorem lookup_get_batch (c : HashCache) (files : List FileInfo)
    (f : FileInfo) (hf : f ∈ files)
    (hpi : ∀ g ∈ files, g.path = f.path → g = f) :
    (HashCache.get_batch c
        (files.map (fun g => (g.path, g.size, g.mtime)))).lookup f.path
      = c.get f.path f.size f.mtime := by
  induction c with
  | nil => rfl
  | cons e rest ih =>
    by_cases hin : (e.path, e.size, e.mtime)
        ∈ files.map (fun g => (g.path, g.size, g.mtime))
    · by_cases hep : e.path = f.path
      · obtain ⟨g, hg, hgtrip⟩ := List.mem_map.mp hin
        simp only [Prod.mk.injEq] at hgtrip
        obtain ⟨hgp, hgs, hgm⟩ := hgtrip
        have hgf : g = f := hpi g hg (hgp.trans hep)
        subst hgf
        unfold HashCache.get_batch
        rw [List.filter_cons, if_pos (decide_eq_true hin), List.map_cons]
        have hbeq : (g.path == e.path) = true := beq_iff_eq.mpr hep.symm
        have hpredt : (e.path == g.path && e.size == g.size
            && e.mtime == g.mtime) = true := by
          simp [hep, ← hgs, ← hgm]
        unfold HashCache.get
        have hfind : List.find?
            (fun x => x.path == g.path && x.size == g.size
              && x.mtime == g.mtime) (e :: rest) = some e := by
          rw [List.find?_cons_of_pos]
          exact hpredt
        rw [hfind]
        simp [List.lookup, hbeq]
      · have hlk : (f.path == e.path) = false := by
          simp
          exact fun he => hep he.symm
        have hpred : (e.path == f.path) = false := by simp [hep]
        simp only [HashCache.get_batch, List.filter_cons, decide_eq_true_eq,
          hin, if_true, List.map_cons, List.lookup, hlk]
        simpa [HashCache.get_batch, HashCache.get, List.find?_cons, hpred]
          using ih
    · have hpred : (e.path == f.path && e.size == f.size
          && e.mtime == f.mtime) = false := by
        cases hb : (e.path == f.path && e.size == f.size
            && e.mtime == f.mtime) with
        | false => rfl
        | true =>
          simp only [Bool.and_eq_true, beq_iff_eq] at hb
          exact absurd (List.mem_map.mpr ⟨f, hf,
            by simp [hb.1.1, hb.1.2, hb.2]⟩) hin
      simp only [HashCache.get_batch, List.filter_cons, decide_eq_true_eq]
      rw [if_neg hin]
      simpa [HashCache.get_batch, HashCache.get, List.find?_cons, hpred]
        using ih

/-- The batched cache pre-pass of the parallel path files every hit under
its cached (= effective) hash and queues exactly the misses, whose
effective hash is the fresh digest. -/
theorem parallelCachePass_ok (fs0 : FS) (cache0 : Option HashCache)
    (S : List FileInfo) (files : List FileInfo)
    (hpi : PathInj S) (hsubS : ∀ f ∈ files, f ∈ S) :
    GroupsOk (effHash fs0 cache0) S (parallelCachePass cache0 files).1
    ∧ (∀ f ∈ (parallelCachePass cache0 files).2.1,
        f ∈ S ∧ effHash fs0 cache0 f = fs0.hashOf f.path) := by
  cases cache0 with
  | none =>
    refine ⟨groupsOk_nil _ _, ?_⟩
    intro f hf
    simp only [parallelCachePass] at hf
    exact ⟨hsubS f hf, rfl⟩
  | some c =>
    suffices hgen : ∀ (l : List FileInfo)
        (acc : List (String × List FileInfo) × List FileInfo × Nat × Nat),
        (∀ x ∈ l, x ∈ files) →
        GroupsOk (effHash fs0 (some c)) S acc.1 →
        (∀ f ∈ acc.2.1,
          f ∈ S ∧ effHash fs0 (some c) f = fs0.hashOf f.path) →
        GroupsOk (effHash fs0 (some c)) S
          (l.foldl (fun acc f =>
            match (c.get_batch
                (files.map (fun g => (g.path, g.size, g.mtime)))).lookup
                f.path with
            | some hv =>
              (addToGroup acc.1 hv f, acc.2.1, acc.2.2.1 + 1, acc.2.2.2)
            | none =>
              (acc.1, acc.2.1 ++ [f], acc.2.2.1, acc.2.2.2 + 1)) acc).1
        ∧ (∀ f ∈ (l.foldl (fun acc f =>
            match (c.get_batch
                (files.map (fun g => (g.path, g.size, g.mtime)))).lookup
                f.path with
            | some hv =>
              (addToGroup acc.1 hv f, acc.2.1, acc.2.2.1 + 1, acc.2.2.2)
            | none =>
              (acc.1, acc.2.1 ++ [f], acc.2.2.1, acc.2.2.2 + 1)) acc).2.1,
            f ∈ S ∧ effHash fs0 (some c) f = fs0.hashOf f.path) by
      exact hgen files ([], [], 0, 0) (fun x hx => hx)
        (groupsOk_nil _ _) (by simp)
    intro l
    induction l with
    | nil =>
      intro acc _ hok htc
      exact ⟨hok, htc⟩
    | cons f rest ihl =>
      intro acc hsub hok htc
      have hfS : f ∈ S := hsubS f (hsub f (List.mem_cons_self _ _))
      have hff : f ∈ files := hsub f (List.mem_cons_self _ _)
      have hpif : ∀ g ∈ files, g.path = f.path → g = f := fun g hg hgp =>
        hpi g (hsubS g hg) f hfS hgp
      have hlg := lookup_get_batch c files f hff hpif
      have hsub' : ∀ x ∈ rest, x ∈ files := fun x hx =>
        hsub x (List.mem_cons_of_mem _ hx)
      cases hget : c.get f.path f.size f.mtime with
      | some hv =>
        rw [hget] at hlg
        simp only [List.foldl_cons, hlg]
        exact ihl _ hsub'
          (groupsOk_addToGroup _ _ _ _ _ hok (by simp [effHash, hget]) hfS)
          htc
      | none =>
        rw [hget] at hlg
        simp only [List.foldl_cons, hlg]
        refine ihl _ hsub' hok ?_
        intro g hg
        rcases List.mem_append.mp hg with hg1 | hg2
        · exact htc g hg1
        · have hgf : g = f := by simpa using hg2
          subst hgf
          exact ⟨hfS, by simp [effHash, hget]⟩

/-- Stage 1 of the multi-stage pass: a cache-hit early return carries the
hit file's effective hash, and a completed pass queues only candidates
whose effective hash is the fresh digest. -/
theorem msStage1_ok (fs0 : FS) (cache0 : Option HashCache)
    (cancel : Nat → Bool) (S : List FileInfo) :
    ∀ (l : List FileInfo) (st : MsSt), (∀ f ∈ l, f ∈ S) →
    ForFullOk fs0 cache0 S st.forFull →
    (∀ h f st', msStage1 fs0 cache0 cancel l st = .cacheHit h f st' →
        effHash fs0 cache0 f = some h ∧ f ∈ S)
    ∧ (∀ st', msStage1 fs0 cache0 cancel l st = .done st' →
        ForFullOk fs0 cache0 S st'.forFull) := by
  intro l
  induction l with
  | nil =>
    intro st _ hff
    constructor
    · intro h f st' heq
      simp [msStage1] at heq
    · intro st' heq
      simp only [msStage1, MsStage1Out.done.injEq] at heq
      exact heq ▸ hff
  | cons f rest ih =>
    intro st hsub hff
    have hfS : f ∈ S := hsub f (List.mem_cons_self _ _)
    have hsub' : ∀ g ∈ rest, g ∈ S := fun g hg =>
      hsub g (List.mem_cons_of_mem _ hg)
    by_cases hc : cancel st.poll = true
    · constructor
      · intro h f' st' heq
        simp [msStage1, hc] at heq
      · intro st' heq
        simp [msStage1, hc] at heq
    · cases cache0 with
      | some c =>
        cases hget : c.get f.path f.size f.mtime with
        | some h =>
          constructor
          · intro h' f' st' heq
            simp only [msStage1, hc, if_false, Bool.false_eq_true, hget,
              MsStage1Out.cacheHit.injEq] at heq
            obtain ⟨hh, hf', -⟩ := heq
            subst hh
            subst hf'
            exact ⟨by simp [effHash, hget], hfS⟩
          · intro st' heq
            simp [msStage1, hc, hget] at heq
        | none =>
          cases hsam : fs0.sampledOf f.path with
          | some ph =>
            have hff' : ForFullOk fs0 (some c) S
                (st.forFull ++ [(f, ph)]) := by
              intro fp hfp
              rcases List.mem_append.mp hfp with h1 | h2
              · exact hff fp h1
              · have : fp = (f, ph) := by simpa using h2
                subst this
                exact ⟨hfS, by simp [effHash, hget]⟩
            have := ih ⟨st.forFull ++ [(f, ph)], st.hits,
              st.misses + 1, st.poll + 1⟩ hsub' hff'
            constructor
            · intro h' f' st' heq
              simp only [msStage1, hc, if_false, Bool.false_eq_true, hget,
                hsam] at heq
              exact this.1 h' f' st' heq
            · intro st' heq
              simp only [msStage1, hc, if_false, Bool.false_eq_true, hget,
                hsam] at heq
              exact this.2 st' heq
          | none =>
            have := ih ⟨st.forFull, st.hits, st.misses + 1,
              st.poll + 1⟩ hsub' hff
            constructor
            · intro h' f' st' heq
              simp only [msStage1, hc, if_false, Bool.false_eq_true, hget,
                hsam] at heq
              exact this.1 h' f' st' heq
            · intro st' heq
              simp only [msStage1, hc, if_false, Bool.false_eq_true, hget,
                hsam] at heq
              exact this.2 st' heq
      | none =>
        cases hsam : fs0.sampledOf f.path with
        | some ph =>
          have hff' : ForFullOk fs0 none S (st.forFull ++ [(f, ph)]) := by
            intro fp hfp
            rcases List.mem_append.mp hfp with h1 | h2
            · exact hff fp h1
            · have : fp = (f, ph) := by simpa using h2
              subst this
              exact ⟨hfS, rfl⟩
          have := ih ⟨st.forFull ++ [(f, ph)], st.hits, st.misses,
            st.poll + 1⟩ hsub' hff'
          constructor
          · intro h' f' st' heq
            simp only [msStage1, hc, if_false, Bool.false_eq_true,
              hsam] at heq
            exact this.1 h' f' st' heq
          · intro st' heq
            simp only [msStage1, hc, if_false, Bool.false_eq_true,
              hsam] at heq
            exact this.2 st' heq
        | none =>
          have := ih ⟨st.forFull, st.hits, st.misses, st.poll + 1⟩ hsub' hff
          constructor
          · intro h' f' st' heq
            simp only [msStage1, hc, if_false, Bool.false_eq_true,
              hsam] at heq
            exact this.1 h' f' st' heq
          · intro st' heq
            simp only [msStage1, hc, if_false, Bool.false_eq_true,
              hsam] at heq
            exact this.2 st' heq

/-- The serial hash phase produces a well-formed group map. -/
theorem serial_phase_groupsOk (fs0 : FS) (cache0 : Option HashCache)
    (cancel : Nat → Bool) (S : List FileInfo) (pd : List (List FileInfo))
    (poll0 : Nat) (hsub : ∀ f ∈ pd.flatten, f ∈ S) :
    GroupsOk (effHash fs0 cache0) S
      (calculate_hashes_serial fs0 cache0 cancel pd poll0).groups := by
  by_cases hc : (serialLoop fs0 cache0 cancel pd.flatten
      ⟨[], [], 0, 0, poll0⟩).2 = true
  · simp only [calculate_hashes_serial, hc, if_true]
    exact groupsOk_nil _ _
  · simp only [calculate_hashes_serial, hc, if_false, Bool.false_eq_true]
    exact serialLoop_groupsOk fs0 cache0 cancel S pd.flatten
      ⟨[], [], 0, 0, poll0⟩ (groupsOk_nil _ _) hsub

/-- The multi-stage hash phase produces a well-formed group map (the
cache-hit early return included: its singleton is filed under the hit
file's cached, hence effective, hash). -/
theorem multi_stage_phase_groupsOk (fs0 : FS) (cfg : Config)
    (cache0 : Option HashCache) (cancel : Nat → Bool)
    (reorder : List FileInfo → List FileInfo) (S : List FileInfo)
    (pd : List (List FileInfo)) (poll0 : Nat)
    (hreorder : ∀ (l : List FileInfo), ∀ f ∈ reorder l, f ∈ l)
    (hsub : ∀ f ∈ pd.flatten, f ∈ S) :
    GroupsOk (effHash fs0 cache0) S
      (calculate_hashes_multi_stage fs0 cfg cache0 cancel reorder
        pd poll0).groups := by
  have hms0 := msStage1_ok fs0 cache0 cancel S pd.flatten ⟨[], 0, 0, poll0⟩
    hsub (by intro fp hfp; simp at hfp)
  cases hms : msStage1 fs0 cache0 cancel pd.flatten ⟨[], 0, 0, poll0⟩ with
  | cancelled st =>
    have hg : (calculate_hashes_multi_stage fs0 cfg cache0 cancel reorder
        pd poll0).groups = [] := by
      simp [calculate_hashes_multi_stage, hms]
    rw [hg]
    exact groupsOk_nil _ _
  | cacheHit h f st =>
    have hg : (calculate_hashes_multi_stage fs0 cfg cache0 cancel reorder
        pd poll0).groups = [(h, [f])] := by
      simp [calculate_hashes_multi_stage, hms]
    rw [hg]
    have hhit := hms0.1 h f st hms
    intro p hp q hq
    have hp' : p = (h, [f]) := by simpa using hp
    subst hp'
    have hq' : q = f := by simpa using hq
    subst hq'
    exact ⟨hhit.1, hhit.2⟩
  | done st =>
    have hforfull := hms0.2 st hms
    have hss : ∀ f ∈ secondStage st.forFull,
        f ∈ S ∧ effHash fs0 cache0 f = fs0.hashOf f.path := by
      intro f hf
      obtain ⟨ph, hph⟩ := mem_secondStage st.forFull f hf
      exact hforfull (f, ph) hph
    by_cases hbr : (cfg.use_parallel
        && decide (1 < (secondStage st.forFull).length)) = true
    · have hg : (calculate_hashes_multi_stage fs0 cfg cache0 cancel reorder
          pd poll0).groups
          = (fullParallelLoop fs0 cache0.isSome cancel
              (reorder (secondStage st.forFull)) [] [] st.poll).1 := by
        simp [calculate_hashes_multi_stage, hms, hbr,
          calculate_full_hashes_parallel]
      rw [hg]
      exact fullParallelLoop_groupsOk fs0 cache0.isSome cancel S
        (effHash fs0 cache0) (reorder (secondStage st.forFull)) [] [] st.poll
        (groupsOk_nil _ _)
        (fun f hf => hss f (hreorder (secondStage st.forFull) f hf))
    · have hg : (calculate_hashes_multi_stage fs0 cfg cache0 cancel reorder
          pd poll0).groups
          = (fullSerialLoop fs0 cancel (secondStage st.forFull) []
              st.poll).1 := by
        simp [calculate_hashes_multi_stage, hms, hbr,
          calculate_full_hashes_serial]
      rw [hg]
      exact fullSerialLoop_groupsOk fs0 cancel S (effHash fs0 cache0)
        (secondStage st.forFull) [] st.poll (groupsOk_nil _ _) hss

/-- The parallel hash phase produces a well-formed group map. -/
theorem parallel_phase_groupsOk (fs0 : FS) (cfg : Config)
    (cache0 : Option HashCache) (cancel : Nat → Bool)
    (reorder : List FileInfo → List FileInfo) (S : List FileInfo)
    (pd : List (List FileInfo)) (poll0 : Nat)
    (hpi : PathInj S)
    (hreorder : ∀ (l : List FileInfo), ∀ f ∈ reorder l, f ∈ l)
    (hsub : ∀ f ∈ pd.flatten, f ∈ S) :
    GroupsOk (effHash fs0 cache0) S
      (calculate_hashes_parallel fs0 cfg cache0 cancel reorder
        pd poll0).groups := by
  have hpre := parallelCachePass_ok fs0 cache0 S pd.flatten hpi hsub
  by_cases hemp : (parallelCachePass cache0 pd.flatten).2.1.isEmpty = true
  · have hg : (calculate_hashes_parallel fs0 cfg cache0 cancel reorder
        pd poll0).groups = (parallelCachePass cache0 pd.flatten).1 := by
      simp [calculate_hashes_parallel, hemp]
    rw [hg]
    exact hpre.1
  · have hg : (calculate_hashes_parallel fs0 cfg cache0 cancel reorder
        pd poll0).groups
        = (parallelCalcLoop fs0 cache0.isSome cancel
            (if cfg.use_parallel && !cfg.use_process_pool then
              reorder (parallelCachePass cache0 pd.flatten).2.1
             else (parallelCachePass cache0 pd.flatten).2.1)
            (parallelCachePass cache0 pd.flatten).1 [] poll0).1 := by
      simp [calculate_hashes_parallel, hemp]
    rw [hg]
    refine parallelCalcLoop_groupsOk fs0 cache0.isSome cancel S
      (effHash fs0 cache0) _ _ [] poll0 hpre.1 ?_
    by_cases hcond : (cfg.use_parallel && !cfg.use_process_pool) = true
    · rw [if_pos hcond]
      exact fun f hf =>
        hpre.2 f (hreorder (parallelCachePass cache0 pd.flatten).2.1 f hf)
    · rw [if_neg hcond]
      exact hpre.2

/-- The final stable sort is a permutation-style rearrangement: every
output group was an input group. -/
theorem mem_sortByTotalDesc (l : List DuplicateGroup) (x : DuplicateGroup)
    (hx : x ∈ sortByTotalDesc l) : x ∈ l := by
  suffices hgen : ∀ (l0 : List DuplicateGroup) (acc : List DuplicateGroup),
      x ∈ l0.foldl (fun a y => insertByTotal y a) acc → x ∈ acc ∨ x ∈ l0 by
    rcases hgen l [] hx with h0 | h1
    · simp at h0
    · exact h1
  intro l0
  induction l0 with
  | nil =>
    intro acc hacc
    exact Or.inl hacc
  | cons y rest ih =>
    intro acc hacc
    simp only [List.foldl_cons] at hacc
    rcases ih _ hacc with hin | hin
    · rcases mem_insertByTotal acc x y hin with rfl | hmem
      · exact Or.inr (List.mem_cons_self _ _)
      · exact Or.inl hmem
    · exact Or.inr (List.mem_cons_of_mem _ hin)

/-- Collating a well-formed group map (filter by `len > 1`, build
`DuplicateGroup`s, stable sort) yields only invariant-satisfying groups:
at least 2 members, consistent `total_size`, one shared effective hash,
and — under size coherence — one shared size. -/
theorem collate_sorted_ok (fs0 : FS) (cache0 : Option HashCache)
    (S : List FileInfo) (gs : List (String × List FileInfo))
    (hok : GroupsOk (effHash fs0 cache0) S gs)
    (hsc : SizeCoherent fs0 cache0 S) :
    ∀ G ∈ sortByTotalDesc ((gs.filter (fun g => 1 < g.2.length)).map
        (fun g => DuplicateGroup.mk g.1 g.2 (g.2.headI.size * g.2.length))),
      2 ≤ G.files.length
      ∧ G.total_size = G.files.headI.size * G.files.length
      ∧ (∀ f ∈ G.files, effHash fs0 cache0 f = some G.hash_value)
      ∧ (∀ f ∈ G.files, f.size = G.files.headI.size) := by
  intro G hG
  obtain ⟨p, hp, hmk⟩ := List.mem_map.mp (mem_sortByTotalDesc _ G hG)
  obtain ⟨hpmem, hplen'⟩ := List.mem_filter.mp hp
  have hplen : 1 < p.2.length := of_decide_eq_true hplen'
  subst hmk
  have hhead : p.2.headI ∈ p.2 := by
    cases hl : p.2 with
    | nil =>
      rw [hl] at hplen
      simp at hplen
    | cons a t =>
      simp [List.headI]
  refine ⟨hplen, rfl, fun f hf => (hok p hpmem f hf).1, ?_⟩
  intro f hf
  have h1 := hok p hpmem f hf
  have h2 := hok p hpmem p.2.headI hhead
  exact hsc f h1.2 p.2.headI h2.2 (h1.1.trans h2.1.symm)
    (by rw [h1.1]; simp)

/-- C5: every `DuplicateGroup` returned by `find_duplicates` — whatever
hashing path ran — has at least 2 members; its `total_size` is the first
member's size times the member count; all members carry the group's hash as
their effective full hash; and (given that effective hashes respect sizes,
the spec's collision-resistance idealisation) all members share the first
member's byte size. -/
theorem duplicate_group_invariants (fs0 : FS) (cfg : Config)
    (cache0 : Option HashCache) (cancel : Nat → Bool)
    (reorder : List FileInfo → List FileInfo) (files : List FileInfo)
    (hpi : PathInj files) (hsc : SizeCoherent fs0 cache0 files)
    (hreorder : ∀ (l : List FileInfo), ∀ f ∈ reorder l, f ∈ l) :
    ∀ G ∈ (find_duplicates fs0 cfg cache0 cancel reorder files).groups,
      2 ≤ G.files.length
      ∧ G.total_size = G.files.headI.size * G.files.length
      ∧ (∀ f ∈ G.files, effHash fs0 cache0 f = some G.hash_value)
      ∧ (∀ f ∈ G.files, f.size = G.files.headI.size) := by
  intro G hG
  have hsub : ∀ f ∈ (sizeGroups files).flatten, f ∈ files := by
    intro f hf
    obtain ⟨g, hg, hfg⟩ := List.mem_flatten.mp hf
    exact sizeGroups_sub files g hg f hfg
  by_cases hc0 : cancel 0 = true
  · rw [show (find_duplicates fs0 cfg cache0 cancel reorder files).groups
        = [] by simp [find_duplicates, hc0]] at hG
    simp at hG
  · cases hstrat : chooseStrategy cfg (sizeGroups files) with
    | multiStage =>
      have hG' : G ∈ sortByTotalDesc
          (((calculate_hashes_multi_stage fs0 cfg cache0 cancel reorder
              (sizeGroups files) 1).groups.filter
              (fun g => 1 < g.2.length)).map
            (fun g => DuplicateGroup.mk g.1 g.2
              (g.2.headI.size * g.2.length))) := by
        rw [show (find_duplicates fs0 cfg cache0 cancel reorder files).groups
            = sortByTotalDesc
              (((calculate_hashes_multi_stage fs0 cfg cache0 cancel reorder
                  (sizeGroups files) 1).groups.filter
                  (fun g => 1 < g.2.length)).map
                (fun g => DuplicateGroup.mk g.1 g.2
                  (g.2.headI.size * g.2.length)))
          by simp [find_duplicates, hc0, hstrat]] at hG
        exact hG
      exact collate_sorted_ok fs0 cache0 files _
        (multi_stage_phase_groupsOk fs0 cfg cache0 cancel reorder files
          (sizeGroups files) 1 hreorder hsub) hsc G hG'
    | par =>
      have hG' : G ∈ sortByTotalDesc
          (((calculate_hashes_parallel fs0 cfg cache0 cancel reorder
              (sizeGroups files) 1).groups.filter
              (fun g => 1 < g.2.length)).map
            (fun g => DuplicateGroup.mk g.1 g.2
              (g.2.headI.size * g.2.length))) := by
        rw [show (find_duplicates fs0 cfg cache0 cancel reorder files).groups
            = sortByTotalDesc
              (((calculate_hashes_parallel fs0 cfg cache0 cancel reorder
                  (sizeGroups files) 1).groups.filter
                  (fun g => 1 < g.2.length)).map
                (fun g => DuplicateGroup.mk g.1 g.2
                  (g.2.headI.size * g.2.length)))
          by simp [find_duplicates, hc0, hstrat]] at hG
        exact hG
      exact collate_sorted_ok fs0 cache0 files _
        (parallel_phase_groupsOk fs0 cfg cache0 cancel reorder files
          (sizeGroups files) 1 hpi hreorder hsub) hsc G hG'
    | serial =>
      have hG' : G ∈ sortByTotalDesc
          (((calculate_hashes_serial fs0 cache0 cancel
              (sizeGroups files) 1).groups.filter
              (fun g => 1 < g.2.length)).map
            (fun g => DuplicateGroup.mk g.1 g.2
              (g.2.headI.size * g.2.length))) := by
        rw [show (find_duplicates fs0 cfg cache0 cancel reorder files).groups
            = sortByTotalDesc
              (((calculate_hashes_serial fs0 cache0 cancel
                  (sizeGroups files) 1).groups.filter
                  (fun g => 1 < g.2.length)).map
                (fun g => DuplicateGroup.mk g.1 g.2
                  (g.2.headI.size * g.2.length)))
          by simp [find_duplicates, hc0, hstrat]] at hG
        exact hG
      exact collate_sorted_ok fs0 cache0 files _
        (serial_phase_groupsOk fs0 cache0 cancel files
          (sizeGroups files) 1 hsub) hsc G hG'

/-- C5 witness: the invariants instantiated at the one group a concrete
serial run yields (the pair `/t/b`, `/t/c`) and at its member `/t/b`. -/
theorem duplicate_group_invariants_witness :
    2 ≤ (DuplicateGroup.mk "hbc" [exB, exC] 2).files.length
    ∧ (DuplicateGroup.mk "hbc" [exB, exC] 2).total_size
        = (DuplicateGroup.mk "hbc" [exB, exC] 2).files.headI.size
          * (DuplicateGroup.mk "hbc" [exB, exC] 2).files.length
    ∧ effHash exFS1 none exB = some "hbc"
    ∧ exB.size = (DuplicateGroup.mk "hbc" [exB, exC] 2).files.headI.size := by
  have h := duplicate_group_invariants exFS1 exCfgSerial none noCancel id
    [exB, exC] (by unfold PathInj; decide) (by unfold SizeCoherent; decide)
    (fun l f hf => hf) (DuplicateGroup.mk "hbc" [exB, exC] 2) (by decide)
  exact ⟨h.1, h.2.1, h.2.2.1 exB (by decide), h.2.2.2 exB (by decide)⟩

end FindSameFile
